import Mathlib

/-!
# LRU cache of the C web server (`src/cache.c`)

A shallow embedding of `src/cache.c`: the heap of cache entries is a partial
map from addresses to entry records, a pointer is an `Option Ptr` (`none` is
`NULL`), and every C function is a function on the machine state.  A result
of `none` means that the C code dereferenced `NULL` or a freed entry.

The `int` fields `max_size` and `cur_size` are integers; every value that
`cur_size` takes lies between `0` and `max_size + 1`, so no `int` overflow
arises for `max_size < INT_MAX`.  `malloc` is taken to succeed and to return
an address never handed out before.
-/

set_option autoImplicit false

/-! ## The embedding of `cache.c` -/

/-- An address on the C heap. -/
abbrev Ptr := Nat

/-- The record `struct cache_entry` (declared in `cache.h`), with the fields
that `cache.c` reads and writes. -/
structure cache_entry where
  path : String
  content_type : String
  content_length : Nat
  content : List UInt8
  prev : Option Ptr
  next : Option Ptr
deriving DecidableEq

/-- Modelled from the spec: the index `struct hashtable` (`hashtable.h` and
`hashtable.c` are not part of the sources).  The spec's Index contract is a
mapping from key to entry reference with `put` (overwrite), `get` and
`delete`; it is kept as an association list with at most one pair per key. -/
abbrev hashtable := List (String × Ptr)

/-- Modelled from the spec: `hashtable_create`, the empty index. -/
def hashtable_create (_size : Int) : hashtable := []

/-- Modelled from the spec: `hashtable_get`, `get(key) -> entryRef or absent`. -/
def hashtable_get : hashtable → String → Option Ptr
  | [], _ => none
  | (k, v) :: rest, key => if k = key then some v else hashtable_get rest key

/-- Modelled from the spec: `hashtable_delete`, `delete(key)`. -/
def hashtable_delete : hashtable → String → hashtable
  | [], _ => []
  | (k, v) :: rest, key =>
    if k = key then hashtable_delete rest key else (k, v) :: hashtable_delete rest key

/-- Modelled from the spec: `hashtable_put`, `put(key, entryRef)` with
overwrite semantics. -/
def hashtable_put (ht : hashtable) (key : String) (data : Ptr) : hashtable :=
  (key, data) :: hashtable_delete ht key

/-- The record `struct cache` (declared in `cache.h`). -/
structure cache where
  index : hashtable
  head : Option Ptr
  tail : Option Ptr
  max_size : Int
  cur_size : Int
deriving DecidableEq

/-- The heap of cache entries: `none` at an address that is not allocated. -/
abbrev Heap := Ptr → Option cache_entry

/-- The machine state: the entry heap, the next address `malloc` hands out,
and the cache record. -/
structure State where
  heap : Heap
  brk : Ptr
  cache : cache

/-- The assignment `p->prev = v`; fails when `p` is not allocated. -/
def set_prev (h : Heap) (p : Ptr) (v : Option Ptr) : Option Heap :=
  match h p with
  | some e => some (Function.update h p (some { e with prev := v }))
  | none => none

/-- The assignment `p->next = v`; fails when `p` is not allocated. -/
def set_next (h : Heap) (p : Ptr) (v : Option Ptr) : Option Heap :=
  match h p with
  | some e => some (Function.update h p (some { e with next := v }))
  | none => none

/-- `alloc_entry` (cache.c:10-24): a new entry at a fresh address holding
copies of the path, the content type and the first `content_length` bytes of
`content`, with both links `NULL`. -/
def alloc_entry (s : State) (path content_type : String) (content : List UInt8)
    (content_length : Nat) : State × Ptr :=
  ({ s with
      heap := Function.update s.heap s.brk (some
        { path := path
          content_type := content_type
          content_length := content_length
          content := content.take content_length
          prev := none
          next := none })
      brk := s.brk + 1 },
   s.brk)

/-- `free_entry` (cache.c:29-35): releases the entry; fails when it is not
allocated. -/
def free_entry (s : State) (entry : Ptr) : Option State :=
  match s.heap entry with
  | some _ => some { s with heap := Function.update s.heap entry none }
  | none => none

/-- `dllist_insert_head` (cache.c:40-56). -/
def dllist_insert_head (s : State) (ce : Ptr) : Option State :=
  match s.cache.head with
  | none => do
    -- cache->head = cache->tail = ce; ce->prev = ce->next = NULL;
    let h1 ← set_next s.heap ce none
    let h2 ← set_prev h1 ce none
    some { s with
      heap := h2
      cache := { s.cache with
        head := some ce, tail := some ce, cur_size := s.cache.cur_size + 1 } }
  | some hd => do
    -- cache->head->prev = ce; ce->next = cache->head; ce->prev = NULL; cache->head = ce;
    let h1 ← set_prev s.heap hd (some ce)
    let h2 ← set_next h1 ce (some hd)
    let h3 ← set_prev h2 ce none
    some { s with
      heap := h3
      cache := { s.cache with head := some ce, cur_size := s.cache.cur_size + 1 } }

/-- `dllist_move_to_head` (cache.c:61-83). -/
def dllist_move_to_head (s : State) (ce : Ptr) : Option State :=
  if some ce ≠ s.cache.head then do
    let (h2, tl) ←
      (if some ce = s.cache.tail then do
        -- cache->tail = ce->prev; cache->tail->next = NULL;
        let e ← s.heap ce
        let t ← e.prev
        let h1 ← set_next s.heap t none
        some (h1, e.prev)
      else do
        -- ce->prev->next = ce->next; ce->next->prev = ce->prev;
        let e ← s.heap ce
        let pv ← e.prev
        let h1 ← set_next s.heap pv e.next
        let e1 ← h1 ce
        let nx ← e1.next
        let h2 ← set_prev h1 nx e1.prev
        some (h2, s.cache.tail))
    -- ce->next = cache->head; cache->head->prev = ce; ce->prev = NULL; cache->head = ce;
    let h3 ← set_next h2 ce s.cache.head
    let hd ← s.cache.head
    let h4 ← set_prev h3 hd (some ce)
    let h5 ← set_prev h4 ce none
    some { s with heap := h5, cache := { s.cache with head := some ce, tail := tl } }
  else some s

/-- `dllist_remove_tail` (cache.c:90-100): unlinks the tail and returns it,
not released. -/
def dllist_remove_tail (s : State) : Option (State × Ptr) := do
  -- oldtail = cache->tail; cache->tail = oldtail->prev; cache->tail->next = NULL;
  let oldtail ← s.cache.tail
  let e ← s.heap oldtail
  let t ← e.prev
  let h1 ← set_next s.heap t none
  -- cache->cur_size--;
  some ({ s with
      heap := h1
      cache := { s.cache with tail := e.prev, cur_size := s.cache.cur_size - 1 } },
    oldtail)

/-- `cache_create` (cache.c:108-119); `hashsize` is not used by the C code. -/
def cache_create (max_size : Int) (_hashsize : Int) : State :=
  { heap := fun _ => none
    brk := 0
    cache :=
      { index := hashtable_create max_size
        head := none
        tail := none
        max_size := max_size
        cur_size := 0 } }

/-- `cache_put` (cache.c:146-166). -/
def cache_put (s : State) (path content_type : String) (content : List UInt8)
    (content_length : Nat) : Option State := do
  let (s1, new_cache_entry) := alloc_entry s path content_type content content_length
  let s2 ← dllist_insert_head s1 new_cache_entry
  let ne ← s2.heap new_cache_entry
  let s3 : State :=
    { s2 with cache := { s2.cache with
        index := hashtable_put s2.cache.index ne.path new_cache_entry } }
  if s3.cache.cur_size > s3.cache.max_size then do
    let (s4, old_tail) ← dllist_remove_tail s3
    let ot ← s4.heap old_tail
    let s5 : State :=
      { s4 with cache := { s4.cache with index := hashtable_delete s4.cache.index ot.path } }
    let s6 ← free_entry s5 old_tail
    some { s6 with cache := { s6.cache with cur_size := s6.cache.cur_size - 1 } }
  else some s3

/-- `cache_get` (cache.c:171-184): the inner `none` is the C result `NULL`. -/
def cache_get (s : State) (path : String) : Option (State × Option Ptr) :=
  match hashtable_get s.cache.index path with
  | none => some (s, none)
  | some entry => do
    let s1 ← dllist_move_to_head s entry
    some (s1, some entry)

/-- A call made by the cache's client. -/
inductive Op where
  | put (path content_type : String) (content : List UInt8) (content_length : Nat)
  | get (path : String)
deriving DecidableEq

/-- One client call; the value returned by `cache_get` is dropped. -/
def step (s : State) : Op → Option State
  | Op.put p t c n => cache_put s p t c n
  | Op.get p => (cache_get s p).map Prod.fst

/-- A sequence of client calls, left to right. -/
def run (s : State) : List Op → Option State
  | [] => some s
  | op :: ops => (step s op).bind fun s1 => run s1 ops

/-- The keys of the `cache_put` calls of a sequence. -/
def put_keys : List Op → List String
  | [] => []
  | Op.put p _ _ _ :: ops => p :: put_keys ops
  | Op.get _ :: ops => put_keys ops

/-- The addresses met by following `next` from `p`, for at most `fuel` steps. -/
def dllist_walk (h : Heap) : Nat → Option Ptr → List Ptr
  | 0, _ => []
  | _, none => []
  | fuel + 1, some p =>
    match h p with
    | some e => p :: dllist_walk h fuel e.next
    | none => [p]

/-- The recency list, head to tail: the entries reachable from `cache->head`
by `next` links.  Every list entry is allocated, so `brk` steps are enough. -/
def dllist_entries (s : State) : List Ptr :=
  dllist_walk s.heap s.brk s.cache.head

/-- The path stored at an address (`none` when not allocated). -/
def path_at (s : State) (p : Ptr) : Option String :=
  (s.heap p).map cache_entry.path

/-- The result of `cache_get` alone: `none` for `NULL` (or a failed call). -/
def cache_get_result (s : State) (path : String) : Option Ptr :=
  match cache_get s path with
  | some (_, r) => r
  | none => none

/-- The heap holds the doubly linked segment `L`: `x` is the address of its
first entry and `pv` that entry's `prev`; `last` is the address of its last
entry and `nx` that entry's `next`.  For the empty segment `x = nx` and
`pv = last`. -/
def dseg (h : Heap) : Option Ptr → Option Ptr → List Ptr → Option Ptr → Option Ptr → Prop
  | x, pv, [], last, nx => x = nx ∧ pv = last
  | x, pv, p :: rest, last, nx =>
    x = some p ∧ ∃ e, h p = some e ∧ e.prev = pv ∧ dseg h e.next (some p) rest last nx

/-- The fields of an entry that the list operations never write. -/
def payload (e : cache_entry) : String × String × Nat × List UInt8 :=
  (e.path, e.content_type, e.content_length, e.content)

/-- The two heaps have the same allocated addresses and the same payloads. -/
def same_data (h h1 : Heap) : Prop := ∀ p, (h1 p).map payload = (h p).map payload

/-- The heap holds the recency list `L` (head to tail) of the cache. -/
structure WF (s : State) (L : List Ptr) : Prop where
  seg : dseg s.heap s.cache.head none L s.cache.tail none
  nodup : L.Nodup
  fresh : ∀ p, s.brk ≤ p → s.heap p = none

/-- Heap `h1` is `h` after the assignment `p->prev = v`. -/
def upd_prev (h h1 : Heap) (p : Ptr) (v : Option Ptr) : Prop :=
  (∃ e, h p = some e ∧ h1 p = some { e with prev := v }) ∧ ∀ q, q ≠ p → h1 q = h q

/-- Heap `h1` is `h` after the assignment `p->next = v`. -/
def upd_next (h h1 : Heap) (p : Ptr) (v : Option Ptr) : Prop :=
  (∃ e, h p = some e ∧ h1 p = some { e with next := v }) ∧ ∀ q, q ≠ p → h1 q = h q

/-- Every key of the index maps to an entry of the list that has this key as
its path. -/
def index_sound (s : State) (L : List Ptr) : Prop :=
  ∀ k p, hashtable_get s.cache.index k = some p → p ∈ L ∧ path_at s p = some k

/-- The bounds on the size counter. -/
def size_ok (s : State) (L : List Ptr) : Prop :=
  1 ≤ s.cache.max_size ∧ 0 ≤ s.cache.cur_size ∧ s.cache.cur_size ≤ s.cache.max_size ∧
    s.cache.cur_size ≤ (L.length : Int)

/-- The invariant of every reachable state, with `L` the recency list. -/
structure CacheInv (s : State) (L : List Ptr) : Prop where
  wf : WF s L
  idx : index_sound s L
  size : size_ok s L

/-- The states that a client can reach: `cache_create` with capacity at
least one, followed by any calls of `cache_put` and `cache_get`. -/
def Reachable (s : State) : Prop :=
  ∃ (max_size hashsize : Int) (ops : List Op),
    1 ≤ max_size ∧ run (cache_create max_size hashsize) ops = some s

/-- The call is a `cache_put`. -/
def is_put : Op → Bool
  | Op.put _ _ _ _ => true
  | Op.get _ => false

/-- The sequence consists of `cache_get` calls only. -/
def only_gets (ops : List Op) : Prop := ∀ op ∈ ops, is_put op = false

/-- The sequence consists of `cache_put` calls only. -/
def only_puts (ops : List Op) : Prop := ∀ op ∈ ops, is_put op = true

instance (ops : List Op) : Decidable (only_gets ops) := by unfold only_gets; infer_instance

instance (ops : List Op) : Decidable (only_puts ops) := by unfold only_puts; infer_instance

/-- Every entry of the list is the one that the index holds for its path. -/
def index_complete (s : State) (L : List Ptr) : Prop :=
  ∀ p ∈ L, ∃ k, path_at s p = some k ∧ hashtable_get s.cache.index k = some p

/-- The entry that a call touches: the one that `cache_put` creates, or the
one that `cache_get` returns on a hit. -/
def touched (s : State) : Op → Option Ptr
  | Op.put p t c n => some (alloc_entry s p t c n).2
  | Op.get p => cache_get_result s p

/-- The touch times after the call `op` made at time `now`. -/
def touch_after (s : State) (op : Op) (now : Nat) (touch : Ptr → Nat) : Ptr → Nat :=
  match touched s op with
  | some p => Function.update touch p now
  | none => touch

/-- A sequence of client calls with a clock: the call made at time `now`
stamps the entry it touches; the result is the final state with the time of
the most recent touch of every entry. -/
def run_touch (s : State) (now : Nat) (touch : Ptr → Nat) :
    List Op → Option (State × (Ptr → Nat))
  | [] => some (s, touch)
  | op :: ops =>
    (step s op).bind fun s1 => run_touch s1 (now + 1) (touch_after s op now touch) ops

/-- The list is ordered by touch time, most recent first, and every touch of
a list entry lies in the past. -/
structure TouchInv (s : State) (L : List Ptr) (now : Nat) (touch : Ptr → Nat) : Prop where
  inv : CacheInv s L
  sorted : L.Pairwise (fun p q => touch q < touch p)
  past : ∀ p ∈ L, touch p < now

/-- The state after the calls `ops` on a new cache of capacity `max_size`
(the new cache itself should a call fail). -/
def cache_after (max_size : Int) (ops : List Op) : State :=
  (run (cache_create max_size 0) ops).getD (cache_create max_size 0)

/-! ## Lemmas and theorems -/

theorem hashtable_get_delete (ht : hashtable) (k key : String) :
    hashtable_get (hashtable_delete ht k) key = if k = key then none else hashtable_get ht key := by
  induction ht with
  | nil => simp [hashtable_delete, hashtable_get]
  | cons kv rest ih =>
    obtain ⟨k0, v0⟩ := kv
    by_cases h0 : k0 = k
    · subst h0
      by_cases h1 : k0 = key
      · subst h1
        simpa [hashtable_delete, hashtable_get] using ih
      · simp [hashtable_delete, hashtable_get, h1, ih]
    · by_cases h1 : k0 = key
      · subst h1
        simp [hashtable_delete, hashtable_get, h0, Ne.symm h0]
      · simp [hashtable_delete, hashtable_get, h0, h1, ih]

theorem hashtable_get_put (ht : hashtable) (k key : String) (v : Ptr) :
    hashtable_get (hashtable_put ht k v) key = if k = key then some v else hashtable_get ht key := by
  by_cases h : k = key
  · simp [hashtable_put, hashtable_get, h]
  · simp [hashtable_put, hashtable_get, h, hashtable_get_delete]

theorem dseg_frame {h h1 : Heap} {L : List Ptr} (hf : ∀ p ∈ L, h1 p = h p) :
    ∀ {x pv last nx}, dseg h x pv L last nx → dseg h1 x pv L last nx := by
  induction L with
  | nil => intro x pv last nx hd; exact hd
  | cons p rest ih =>
    intro x pv last nx hd
    obtain ⟨hx, e, he, hp, hr⟩ := hd
    refine ⟨hx, e, ?_, hp, ih (fun q hq => hf q (List.mem_cons_of_mem _ hq)) hr⟩
    rw [hf p (List.mem_cons_self _ _)]; exact he

theorem dseg_alloc {h : Heap} {L : List Ptr} :
    ∀ {x pv last nx}, dseg h x pv L last nx → ∀ p ∈ L, ∃ e, h p = some e := by
  induction L with
  | nil => intro x pv last nx _ p hp; cases hp
  | cons q rest ih =>
    intro x pv last nx hd p hp
    obtain ⟨_, e, he, _, hr⟩ := hd
    rcases List.mem_cons.1 hp with rfl | hp
    · exact ⟨e, he⟩
    · exact ih hr p hp

theorem dseg_append {h : Heap} {A B : List Ptr} :
    ∀ {x pv last nx}, dseg h x pv (A ++ B) last nx ↔
      ∃ mid ml, dseg h x pv A ml mid ∧ dseg h mid ml B last nx := by
  induction A with
  | nil =>
    intro x pv last nx
    constructor
    · intro hd; exact ⟨x, pv, ⟨rfl, rfl⟩, hd⟩
    · rintro ⟨mid, ml, ⟨h1, h2⟩, hd⟩; subst h1; subst h2; exact hd
  | cons p rest ih =>
    intro x pv last nx
    constructor
    · rintro ⟨hx, e, he, hp, hr⟩
      obtain ⟨mid, ml, ha, hb⟩ := ih.1 hr
      exact ⟨mid, ml, ⟨hx, e, he, hp, ha⟩, hb⟩
    · rintro ⟨mid, ml, ⟨hx, e, he, hp, ha⟩, hb⟩
      exact ⟨hx, e, he, hp, ih.2 ⟨mid, ml, ha, hb⟩⟩

theorem dseg_last {h : Heap} {A : List Ptr} {u : Ptr} {x pv last nx}
    (hd : dseg h x pv (A ++ [u]) last nx) : last = some u := by
  obtain ⟨mid, ml, _, hb⟩ := dseg_append.1 hd
  obtain ⟨_, e, _, _, hr⟩ := hb
  exact hr.2.symm

theorem dseg_walk {h : Heap} {L : List Ptr} :
    ∀ {x pv last} {fuel : Nat}, dseg h x pv L last none → L.length ≤ fuel →
      dllist_walk h fuel x = L := by
  induction L with
  | nil =>
    intro x pv last fuel hd _
    obtain ⟨hx, _⟩ := hd
    subst hx
    cases fuel <;> rfl
  | cons p rest ih =>
    intro x pv last fuel hd hf
    obtain ⟨hx, e, he, _, hr⟩ := hd
    subst hx
    cases fuel with
    | zero => simp at hf
    | succ f =>
      simp only [dllist_walk, he]
      rw [ih hr (by simpa using hf)]

theorem same_data_refl (h : Heap) : same_data h h := fun _ => rfl

theorem same_data_trans {h h1 h2 : Heap} (a : same_data h h1) (b : same_data h1 h2) :
    same_data h h2 := fun p => (b p).trans (a p)

theorem set_prev_spec {h : Heap} {p : Ptr} {e : cache_entry} (he : h p = some e)
    (v : Option Ptr) : ∃ h1, set_prev h p v = some h1 ∧ upd_prev h h1 p v := by
  refine ⟨Function.update h p (some { e with prev := v }), by simp [set_prev, he],
    ⟨e, he, Function.update_same _ _ _⟩, ?_⟩
  intro q hq
  simp [Function.update, hq]

theorem set_next_spec {h : Heap} {p : Ptr} {e : cache_entry} (he : h p = some e)
    (v : Option Ptr) : ∃ h1, set_next h p v = some h1 ∧ upd_next h h1 p v := by
  refine ⟨Function.update h p (some { e with next := v }), by simp [set_next, he],
    ⟨e, he, Function.update_same _ _ _⟩, ?_⟩
  intro q hq
  simp [Function.update, hq]

theorem upd_prev_data {h h1 : Heap} {p : Ptr} {v : Option Ptr} (hu : upd_prev h h1 p v) :
    same_data h h1 := by
  obtain ⟨⟨e, he, he1⟩, hf⟩ := hu
  intro q
  by_cases hq : q = p
  · subst hq; simp [he, he1, payload]
  · rw [hf q hq]

theorem upd_next_data {h h1 : Heap} {p : Ptr} {v : Option Ptr} (hu : upd_next h h1 p v) :
    same_data h h1 := by
  obtain ⟨⟨e, he, he1⟩, hf⟩ := hu
  intro q
  by_cases hq : q = p
  · subst hq; simp [he, he1, payload]
  · rw [hf q hq]

theorem same_data_none {h h1 : Heap} (hd : same_data h h1) {p : Ptr} (hp : h p = none) :
    h1 p = none := by
  have := hd p
  rw [hp] at this
  simpa using this

theorem same_data_some {h h1 : Heap} (hd : same_data h h1) {p : Ptr} {e : cache_entry}
    (hp : h p = some e) : ∃ e1, h1 p = some e1 ∧ payload e1 = payload e := by
  have := hd p
  rw [hp] at this
  cases h1p : h1 p with
  | none => rw [h1p] at this; cases this
  | some e1 => rw [h1p] at this; exact ⟨e1, rfl, by simpa using this⟩

theorem upd_prev_seg {h h1 : Heap} {p : Ptr} {rest : List Ptr} {x pv last nx v}
    (hd : dseg h x pv (p :: rest) last nx) (hp : p ∉ rest) (hu : upd_prev h h1 p v) :
    dseg h1 x v (p :: rest) last nx := by
  obtain ⟨hx, e1, he1, _, hr⟩ := hd
  obtain ⟨⟨e, he, he2⟩, hf⟩ := hu
  rw [he] at he1; cases he1
  refine ⟨hx, _, he2, rfl, dseg_frame ?_ hr⟩
  intro q hq
  exact hf q (fun hqp => hp (hqp ▸ hq))

theorem upd_next_seg {h h1 : Heap} {A : List Ptr} {p : Ptr} {x pv last nx v}
    (hd : dseg h x pv (A ++ [p]) last nx) (hp : p ∉ A) (hu : upd_next h h1 p v) :
    dseg h1 x pv (A ++ [p]) last v := by
  obtain ⟨mid, ml, ha, hb⟩ := dseg_append.1 hd
  obtain ⟨hx, e1, he1, hpv, hr⟩ := hb
  obtain ⟨⟨e, he, he2⟩, hf⟩ := hu
  rw [he] at he1; cases he1
  refine dseg_append.2 ⟨mid, ml, dseg_frame ?_ ha, hx, _, he2, hpv, rfl, hr.2⟩
  intro q hq
  exact hf q (fun hqp => hp (hqp ▸ hq))

/-- Linking `ce` in front of the segment `a :: M`:  `h1` is `h` with
`ce->next = a`, `ce->prev = NULL` and `a->prev = ce`, in any order. -/
theorem dseg_push {h h1 : Heap} {a ce : Ptr} {M : List Ptr} {x pv last nx}
    {e1 ea : cache_entry}
    (hd : dseg h x pv (a :: M) last nx)
    (hea : h a = some ea) (h1a : h1 a = some { ea with prev := some ce })
    (h1ce : h1 ce = some e1) (hpv : e1.prev = none) (hnx : e1.next = some a)
    (hf : ∀ q ∈ M, h1 q = h q) :
    dseg h1 (some ce) none (ce :: a :: M) last nx := by
  obtain ⟨_, e2, he2, _, hr⟩ := hd
  rw [hea] at he2; cases he2
  refine ⟨rfl, e1, h1ce, hpv, ?_⟩
  rw [hnx]
  exact ⟨rfl, _, h1a, rfl, dseg_frame hf hr⟩

theorem dllist_insert_head_spec {s : State} {L : List Ptr} {ce : Ptr} {e : cache_entry}
    (hw : WF s L) (hce : ce ∉ L) (he : s.heap ce = some e) :
    ∃ s1, dllist_insert_head s ce = some s1 ∧ WF s1 (ce :: L) ∧
      s1.cache.index = s.cache.index ∧ s1.cache.max_size = s.cache.max_size ∧
      s1.cache.cur_size = s.cache.cur_size + 1 ∧ s1.brk = s.brk ∧
      same_data s.heap s1.heap := by
  cases L with
  | nil =>
    obtain ⟨hh, ht⟩ := hw.seg
    obtain ⟨h1, hs1, hu1⟩ := set_next_spec he none
    obtain ⟨⟨e1, he1, he1b⟩, hf1⟩ := id hu1
    obtain ⟨h2, hs2, hu2⟩ := set_prev_spec he1b none
    obtain ⟨⟨e2, he2, he2b⟩, hf2⟩ := id hu2
    rw [he] at he1; cases he1
    rw [he1b] at he2; cases he2
    simp only [dllist_insert_head, hh, hs1, hs2, Option.bind_eq_bind, Option.some_bind]
    refine ⟨_, rfl, ⟨⟨rfl, _, he2b, rfl, rfl, rfl⟩, by simp, ?_⟩, rfl, rfl, rfl, rfl,
      same_data_trans (upd_next_data hu1) (upd_prev_data hu2)⟩
    intro p hp
    exact same_data_none (same_data_trans (upd_next_data hu1) (upd_prev_data hu2))
      (hw.fresh p hp)
  | cons hd rest =>
    obtain ⟨hx, ehd, hehd, hpv, hr⟩ := id hw.seg
    have hne : ce ≠ hd := fun h => hce (h ▸ List.mem_cons_self _ _)
    have hnd := List.nodup_cons.1 hw.nodup
    obtain ⟨h1, hs1, hu1⟩ := set_prev_spec hehd (some ce)
    obtain ⟨⟨e1, he1, he1b⟩, hf1⟩ := id hu1
    rw [hehd] at he1; cases he1
    have hce1 : h1 ce = some e := by rw [hf1 ce hne]; exact he
    obtain ⟨h2, hs2, hu2⟩ := set_next_spec hce1 (some hd)
    obtain ⟨⟨e2, he2, he2b⟩, hf2⟩ := id hu2
    rw [hce1] at he2; cases he2
    obtain ⟨h3, hs3, hu3⟩ := set_prev_spec he2b none
    obtain ⟨⟨e3, he3, he3b⟩, hf3⟩ := id hu3
    rw [he2b] at he3; cases he3
    have hdata := same_data_trans (upd_prev_data hu1)
      (same_data_trans (upd_next_data hu2) (upd_prev_data hu3))
    simp only [dllist_insert_head, hx, hs1, hs2, hs3, Option.bind_eq_bind, Option.some_bind]
    refine ⟨_, rfl, ⟨?_, List.nodup_cons.2 ⟨hce, hw.nodup⟩, ?_⟩, rfl, rfl, rfl, rfl, hdata⟩
    · refine dseg_push hw.seg hehd ?_ he3b rfl rfl ?_
      · show h3 hd = _
        rw [hf3 hd hne.symm, hf2 hd hne.symm]; exact he1b
      · intro q hq
        have hqce : q ≠ ce := fun h => hce (h ▸ List.mem_cons_of_mem _ hq)
        have hqhd : q ≠ hd := fun h => hnd.1 (h ▸ hq)
        show h3 q = s.heap q
        rw [hf3 q hqce, hf2 q hqce, hf1 q hqhd]
    · intro p hp
      exact same_data_none hdata (hw.fresh p hp)

theorem exists_snoc {L : List Ptr} (h : L ≠ []) : ∃ A u, L = A ++ [u] :=
  ⟨L.dropLast, L.getLast h, (List.dropLast_concat_getLast h).symm⟩

theorem dseg_last_mem {h : Heap} {L : List Ptr} {x pv last nx}
    (hd : dseg h x pv L last nx) (hL : L ≠ []) : ∃ u ∈ L, last = some u := by
  obtain ⟨A, u, rfl⟩ := exists_snoc hL
  exact ⟨u, by simp, dseg_last hd⟩

/-- The last three assignments of `dllist_move_to_head`: linking `ce` in
front of the list `a :: M`. -/
theorem push_front {h : Heap} {a ce : Ptr} {M : List Ptr} {pv tl : Option Ptr}
    {e : cache_entry}
    (hd : dseg h (some a) pv (a :: M) tl none) (hce : ce ∉ a :: M) (ha : a ∉ M)
    (he : h ce = some e) :
    ∃ h3 h4 h5, set_next h ce (some a) = some h3 ∧ set_prev h3 a (some ce) = some h4 ∧
      set_prev h4 ce none = some h5 ∧ dseg h5 (some ce) none (ce :: a :: M) tl none ∧
      same_data h h5 := by
  have hne : ce ≠ a := fun h => hce (h ▸ List.mem_cons_self _ _)
  obtain ⟨ea, hea⟩ := dseg_alloc hd a (List.mem_cons_self _ _)
  obtain ⟨h3, hs3, hu3⟩ := set_next_spec he (some a)
  obtain ⟨⟨e3, he3, he3b⟩, hf3⟩ := id hu3
  rw [he] at he3; cases he3
  have ha3 : h3 a = some ea := by rw [hf3 a hne.symm]; exact hea
  obtain ⟨h4, hs4, hu4⟩ := set_prev_spec ha3 (some ce)
  obtain ⟨⟨e4, he4, he4b⟩, hf4⟩ := id hu4
  rw [ha3] at he4; cases he4
  have hc4 : h4 ce = _ := (hf4 ce hne).trans he3b
  obtain ⟨h5, hs5, hu5⟩ := set_prev_spec hc4 none
  obtain ⟨⟨e5, he5, he5b⟩, hf5⟩ := id hu5
  rw [hc4] at he5; cases he5
  refine ⟨h3, h4, h5, hs3, hs4, hs5, ?_,
    same_data_trans (upd_next_data hu3) (same_data_trans (upd_prev_data hu4) (upd_prev_data hu5))⟩
  refine dseg_push hd hea ?_ he5b rfl rfl ?_
  · rw [hf5 a hne.symm]; exact he4b
  · intro q hq
    have hqce : q ≠ ce := fun h => hce (h ▸ List.mem_cons_of_mem _ hq)
    have hqa : q ≠ a := fun h => ha (h ▸ hq)
    rw [hf5 q hqce, hf4 q hqa, hf3 q hqce]

theorem dllist_remove_tail_spec {s : State} {A : List Ptr} {u t : Ptr}
    (hw : WF s (A ++ [u, t])) :
    ∃ s1, dllist_remove_tail s = some (s1, t) ∧ WF s1 (A ++ [u]) ∧
      s1.cache.index = s.cache.index ∧ s1.cache.max_size = s.cache.max_size ∧
      s1.cache.cur_size = s.cache.cur_size - 1 ∧ s1.brk = s.brk ∧
      same_data s.heap s1.heap := by
  have hL : A ++ [u, t] = (A ++ [u]) ++ [t] := by simp
  have hnd := hw.nodup
  rw [hL] at hnd
  obtain ⟨hnd1, _, hdis⟩ := List.nodup_append.1 hnd
  have huA : u ∉ A := by
    intro hu
    have := (List.nodup_append.1 hnd1).2.2
    exact this hu (List.mem_singleton_self u)
  have hseg := hw.seg
  rw [hL] at hseg
  obtain ⟨mid, ml, ha, hb⟩ := dseg_append.1 hseg
  obtain ⟨hmid, e, het, hpv, hnx, htl⟩ := hb
  have hml : ml = some u := dseg_last ha
  subst hml
  obtain ⟨eu, heu⟩ := dseg_alloc ha u (by simp)
  obtain ⟨h1, hs1, hu1⟩ := set_next_spec heu none
  simp only [dllist_remove_tail, ← htl, het, hpv, hs1, Option.bind_eq_bind, Option.some_bind]
  refine ⟨_, rfl, ⟨upd_next_seg ha huA hu1, hnd1, ?_⟩, rfl, rfl, rfl, rfl, upd_next_data hu1⟩
  intro p hp
  exact same_data_none (upd_next_data hu1) (hw.fresh p hp)

theorem dllist_move_to_head_spec {s : State} {L : List Ptr} {ce : Ptr}
    (hw : WF s L) (hce : ce ∈ L) :
    ∃ s1, dllist_move_to_head s ce = some s1 ∧ WF s1 (ce :: L.erase ce) ∧
      s1.cache.index = s.cache.index ∧ s1.cache.max_size = s.cache.max_size ∧
      s1.cache.cur_size = s.cache.cur_size ∧ s1.brk = s.brk ∧
      same_data s.heap s1.heap := by
  obtain ⟨A, B, rfl⟩ := List.append_of_mem hce
  have hnd := hw.nodup
  obtain ⟨hndA, hndB, hdis⟩ := List.nodup_append.1 hnd
  have hceA : ce ∉ A := fun h => hdis h (List.mem_cons_self _ _)
  have hceB : ce ∉ B := (List.nodup_cons.1 hndB).1
  have her : (A ++ ce :: B).erase ce = A ++ B := by
    rw [List.erase_append_right _ hceA, List.erase_cons_head]
  rw [her]
  cases A with
  | nil =>
    have hh : s.cache.head = some ce := hw.seg.1
    have : ¬ (some ce ≠ s.cache.head) := by rw [hh]; simp
    simp only [dllist_move_to_head, if_neg this]
    exact ⟨s, rfl, by simpa using hw, rfl, rfl, rfl, rfl, same_data_refl _⟩
  | cons a A1 =>
    have hh : s.cache.head = some a := hw.seg.1
    have hane : ce ≠ a := fun h => hceA (h ▸ List.mem_cons_self _ _)
    have hc1 : some ce ≠ some a := by simpa using hane
    have hceA0 := hceA
    have hndA0 := hndA
    obtain ⟨A2, u, hA⟩ := exists_snoc (List.cons_ne_nil a A1)
    have hseg := hw.seg
    rw [hA] at hseg hndA hceA hdis
    obtain ⟨mid, ml, hsa, hsb⟩ := dseg_append.1 hseg
    obtain ⟨hmid, e, hece, hpv, hrest⟩ := hsb
    have hml : ml = some u := dseg_last hsa
    subst hml
    have huA2 : u ∉ A2 := by
      intro hu
      exact (List.nodup_append.1 hndA).2.2 hu (List.mem_singleton_self u)
    have huce : u ≠ ce := fun h => hceA (h ▸ by simp)
    obtain ⟨eu, heu⟩ := dseg_alloc hsa u (by simp)
    have haM : ∀ M : List Ptr, a ∉ A1 ++ M → a ∉ A1 := fun M h hm => h (by simp [hm])
    cases B with
    | nil =>
      obtain ⟨hnx, htl⟩ := hrest
      have hc2 : some ce = s.cache.tail := htl
      obtain ⟨h1, hs1, hu1⟩ := set_next_spec heu none
      have hs1seg := upd_next_seg hsa huA2 hu1
      rw [← hA, hh] at hs1seg
      have h1ce : h1 ce = some e := by rw [hu1.2 ce (Ne.symm huce)]; exact hece
      have haA1 : a ∉ A1 := (List.nodup_cons.1 (by rw [← hA] at hndA; exact hndA)).1
      obtain ⟨h3, h4, h5, hs3, hs4, hs5, hseg5, hdata⟩ :=
        push_front hs1seg (by rw [hA]; exact hceA) haA1 h1ce
      have hdata1 := same_data_trans (upd_next_data hu1) hdata
      simp only [dllist_move_to_head, hh, if_pos hc1, if_pos hc2, hece, hpv, hs1, hs3, hs4, hs5,
        Option.bind_eq_bind, Option.some_bind]
      refine ⟨_, rfl, ⟨by simpa using hseg5, ?_, ?_⟩, rfl, rfl, rfl, rfl, hdata1⟩
      · rw [List.append_nil]
        exact List.nodup_cons.2 ⟨hceA0, hndA0⟩
      · intro p hp
        exact same_data_none hdata1 (hw.fresh p hp)
    | cons b B1 =>
      obtain ⟨hnx, eb, heb, hbpv, hbrest⟩ := id hrest
      have hbce : b ≠ ce := fun h => hceB (h ▸ List.mem_cons_self _ _)
      obtain ⟨w, hwB, htl⟩ := dseg_last_mem hrest (List.cons_ne_nil b B1)
      have hc2 : ¬ (some ce = s.cache.tail) := by
        rw [htl]; intro h; cases h; exact hceB hwB
      have huB : u ∉ b :: B1 := fun h => hdis (by simp) (List.mem_cons_of_mem _ h)
      have hub : u ≠ b := fun h => huB (h ▸ List.mem_cons_self _ _)
      have hbA : b ∉ A2 ++ [u] := fun h => hdis h (by simp)
      have hbB1 : b ∉ B1 := (List.nodup_cons.1 (List.nodup_cons.1 hndB).2).1
      obtain ⟨h1, hs1, hu1⟩ := set_next_spec heu (some b)
      have h1ce : h1 ce = some e := by rw [hu1.2 ce (Ne.symm huce)]; exact hece
      have h1b : h1 b = some eb := by rw [hu1.2 b (Ne.symm hub)]; exact heb
      obtain ⟨h2, hs2, hu2⟩ := set_prev_spec h1b (some u)
      have h2ce : h2 ce = some e := by rw [hu2.2 ce (Ne.symm hbce)]; exact h1ce
      have hsegA : dseg h2 s.cache.head none (A2 ++ [u]) (some u) (some b) := by
        refine dseg_frame ?_ (upd_next_seg hsa huA2 hu1)
        intro q hq
        exact hu2.2 q (fun h => hbA (h ▸ hq))
      have hsegB : dseg h2 (some b) (some u) (b :: B1) s.cache.tail none := by
        refine upd_prev_seg (dseg_frame ?_ (hnx ▸ hrest)) hbB1 hu2
        intro q hq
        exact hu1.2 q (fun h => huB (h ▸ hq))
      have hseg2 : dseg h2 (some a) none (a :: (A1 ++ b :: B1)) s.cache.tail none := by
        have := dseg_append.2 ⟨_, _, hsegA, hsegB⟩
        rw [← hA, hh] at this
        simpa using this
      have hnd2 : (a :: (A1 ++ b :: B1)).Nodup := by
        have h1 : (a :: A1 ++ ce :: b :: B1).Nodup := hnd
        have h2 : (a :: A1 ++ b :: B1).Sublist (a :: A1 ++ ce :: b :: B1) :=
          List.Sublist.append_left (List.sublist_cons_self ce (b :: B1)) _
        simpa using h1.sublist h2
      have hce2 : ce ∉ a :: (A1 ++ b :: B1) := by
        rw [← hA] at hceA
        intro h
        rcases List.mem_cons.1 h with h | h
        · exact hane h
        · rcases List.mem_append.1 h with h | h
          · exact hceA (List.mem_cons_of_mem _ h)
          · exact hceB h
      obtain ⟨h3, h4, h5, hs3, hs4, hs5, hseg5, hdata⟩ :=
        push_front hseg2 hce2 (List.nodup_cons.1 hnd2).1 h2ce
      have hdata1 := same_data_trans (upd_next_data hu1)
        (same_data_trans (upd_prev_data hu2) hdata)
      simp only [dllist_move_to_head, hh, if_pos hc1, if_neg hc2, hece, hpv, hnx, hs1, h1ce, hs2,
        hs3, hs4, hs5, Option.bind_eq_bind, Option.some_bind]
      refine ⟨_, rfl, ⟨by simpa using hseg5, ?_, ?_⟩, rfl, rfl, rfl, rfl, hdata1⟩
      · exact List.nodup_cons.2 ⟨by simpa using hce2, by simpa using hnd2⟩
      · intro p hp
        exact same_data_none hdata1 (hw.fresh p hp)

theorem WF_alloc {s : State} {L : List Ptr} (hw : WF s L) (path ct : String)
    (content : List UInt8) (n : Nat) :
    WF (alloc_entry s path ct content n).1 L ∧ s.brk ∉ L := by
  have hb : s.brk ∉ L := by
    intro hm
    obtain ⟨e, he⟩ := dseg_alloc hw.seg _ hm
    rw [hw.fresh _ (le_refl _)] at he; cases he
  refine ⟨⟨dseg_frame ?_ hw.seg, hw.nodup, ?_⟩, hb⟩
  · intro q hq
    have : q ≠ s.brk := fun h => hb (h ▸ hq)
    simp [alloc_entry, Function.update, this]
  · intro p hp
    have hp1 : s.brk + 1 ≤ p := hp
    have : p ≠ s.brk := Nat.ne_of_gt hp1
    simp only [alloc_entry, Function.update, this, dite_false]
    exact hw.fresh p (Nat.le_of_succ_le hp1)

/-- The first half of `cache_put`: the new entry is allocated at `s.brk` and
linked in front of the list. -/
theorem put_front {s : State} {L : List Ptr} (hw : WF s L) (path ct : String)
    (content : List UInt8) (n : Nat) :
    ∃ s2 e2, dllist_insert_head (alloc_entry s path ct content n).1
        (alloc_entry s path ct content n).2 = some s2 ∧
      s2.heap s.brk = some e2 ∧ payload e2 = (path, ct, n, content.take n) ∧
      WF s2 (s.brk :: L) ∧ s.brk ∉ L ∧
      s2.cache.index = s.cache.index ∧ s2.cache.max_size = s.cache.max_size ∧
      s2.cache.cur_size = s.cache.cur_size + 1 ∧ s2.brk = s.brk + 1 ∧
      ∀ p, p ≠ s.brk → (s2.heap p).map payload = (s.heap p).map payload := by
  obtain ⟨hw1, hb⟩ := WF_alloc hw path ct content n
  have he1 : (alloc_entry s path ct content n).1.heap s.brk = some
      { path := path, content_type := ct, content_length := n, content := content.take n,
        prev := none, next := none } := by
    simp [alloc_entry]
  obtain ⟨s2, hs2, hw2, hi2, hm2, hc2, hb2, hd2⟩ := dllist_insert_head_spec hw1 hb he1
  obtain ⟨e2, he2, hp2⟩ := same_data_some hd2 he1
  refine ⟨s2, e2, hs2, he2, hp2, hw2, hb, hi2, hm2, hc2, hb2, ?_⟩
  intro p hp
  rw [hd2 p]
  simp [alloc_entry, Function.update, hp]

theorem put_nonempty {s : State} {L : List Ptr} (hi : CacheInv s L)
    (hc : s.cache.max_size < s.cache.cur_size + 1) : L ≠ [] := by
  intro hL
  obtain ⟨h1, h2, h3, h4⟩ := hi.size
  rw [hL] at h4
  simp at h4
  omega

/-- `cache_put` below capacity: the new entry becomes the head and nothing is
evicted. -/
theorem cache_put_keep {s : State} {L : List Ptr} (hi : CacheInv s L)
    (hc : s.cache.cur_size + 1 ≤ s.cache.max_size) (path ct : String)
    (content : List UInt8) (n : Nat) :
    ∃ s1, cache_put s path ct content n = some s1 ∧ CacheInv s1 (s.brk :: L) ∧
      s1.cache.index = hashtable_put s.cache.index path s.brk ∧
      s1.cache.cur_size = s.cache.cur_size + 1 ∧
      s1.cache.max_size = s.cache.max_size ∧ s1.brk = s.brk + 1 ∧
      (∃ e, s1.heap s.brk = some e ∧ payload e = (path, ct, n, content.take n)) ∧
      ∀ p, p ≠ s.brk → (s1.heap p).map payload = (s.heap p).map payload := by
  obtain ⟨s2, e2, hs2, he2, hp2, hw2, hb, hi2, hm2, hc2, hb2, hd2⟩ :=
    put_front hi.wf path ct content n
  have hpath : e2.path = path := congrArg Prod.fst hp2
  have hnot : ¬ (s2.cache.cur_size > s2.cache.max_size) := by rw [hc2, hm2]; omega
  have he2a : s2.heap (alloc_entry s path ct content n).2 = some e2 := he2
  unfold cache_put
  simp only [hs2, he2a, if_neg hnot, Option.bind_eq_bind, Option.some_bind]
  refine ⟨_, rfl, ⟨⟨hw2.seg, hw2.nodup, hw2.fresh⟩, ?_, ?_⟩, ?_, hc2, hm2, hb2,
    ⟨e2, he2, hp2⟩, hd2⟩
  · intro k p hk
    have hk1 : hashtable_get (hashtable_put s2.cache.index e2.path s.brk) k = some p := hk
    rw [hashtable_get_put, hi2, hpath] at hk1
    by_cases hkp : path = k
    · rw [if_pos hkp] at hk1
      cases hk1
      refine ⟨List.mem_cons_self _ _, ?_⟩
      show (s2.heap s.brk).map cache_entry.path = some k
      rw [he2]; simp [hpath, hkp]
    · rw [if_neg hkp] at hk1
      obtain ⟨hm, hpa⟩ := hi.idx k p hk1
      refine ⟨List.mem_cons_of_mem _ hm, ?_⟩
      have hne : p ≠ s.brk := fun h => hb (h ▸ hm)
      have := hd2 p hne
      have h3 : (s2.heap p).map cache_entry.path = (s.heap p).map cache_entry.path := by
        have := congrArg (Option.map Prod.fst) this
        simpa [Option.map_map, Function.comp, payload] using this
      show (s2.heap p).map cache_entry.path = some k
      rw [h3]; exact hpa
  · obtain ⟨h1, h2, h3, h4⟩ := hi.size
    refine ⟨?_, ?_, ?_, ?_⟩
    · show 1 ≤ s2.cache.max_size
      rw [hm2]; exact h1
    · show 0 ≤ s2.cache.cur_size
      rw [hc2]; omega
    · show s2.cache.cur_size ≤ s2.cache.max_size
      rw [hc2, hm2]; exact hc
    · show s2.cache.cur_size ≤ ((s.brk :: L).length : Int)
      rw [hc2]; simp; omega
  · show hashtable_put s2.cache.index e2.path _ = _
    rw [hi2, hpath]; rfl

theorem payload_path {a b : Option cache_entry}
    (h : a.map payload = b.map payload) : a.map cache_entry.path = b.map cache_entry.path := by
  have := congrArg (Option.map Prod.fst) h
  simpa [Option.map_map, Function.comp, payload] using this

/-- `cache_put` at capacity: the new entry becomes the head, the tail `t` is
unlinked, its key is deleted from the index, and it is released. -/
theorem cache_put_evict {s : State} {A : List Ptr} {t : Ptr} (hi : CacheInv s (A ++ [t]))
    (hc : s.cache.max_size < s.cache.cur_size + 1) (path ct : String)
    (content : List UInt8) (n : Nat) :
    ∃ s1 et, cache_put s path ct content n = some s1 ∧ s.heap t = some et ∧
      CacheInv s1 (s.brk :: A) ∧
      s1.cache.index =
        hashtable_delete (hashtable_put s.cache.index path s.brk) et.path ∧
      s1.cache.cur_size = s.cache.cur_size - 1 ∧
      s1.cache.max_size = s.cache.max_size ∧ s1.brk = s.brk + 1 ∧
      (∃ e, s1.heap s.brk = some e ∧ payload e = (path, ct, n, content.take n)) ∧
      s1.heap t = none ∧
      ∀ p, p ≠ s.brk → p ≠ t → (s1.heap p).map payload = (s.heap p).map payload := by
  obtain ⟨s2, e2, hs2, he2, hp2, hw2, hb, hi2, hm2, hc2, hb2, hd2⟩ :=
    put_front hi.wf path ct content n
  have hpath : e2.path = path := congrArg Prod.fst hp2
  have hgt : s2.cache.cur_size > s2.cache.max_size := by rw [hc2, hm2]; omega
  have he2a : s2.heap (alloc_entry s path ct content n).2 = some e2 := he2
  have htb : t ≠ s.brk := fun h => hb (h ▸ by simp)
  obtain ⟨et, het⟩ := dseg_alloc hi.wf.seg t (by simp)
  -- the list `brk :: A ++ [t]` ends in two entries `u, t`
  obtain ⟨A0, u, hA0⟩ := exists_snoc (List.cons_ne_nil s.brk A)
  have hL : s.brk :: (A ++ [t]) = A0 ++ [u, t] := by
    rw [← List.cons_append, hA0]; simp
  rw [hL] at hw2
  obtain ⟨s4, hs4, hw4, hi4, hm4, hc4, hb4, hd4⟩ :=
    dllist_remove_tail_spec (s := { s2 with cache := { s2.cache with
        index := hashtable_put s2.cache.index e2.path (alloc_entry s path ct content n).2 } })
      ⟨hw2.seg, hw2.nodup, hw2.fresh⟩
  rw [← hA0] at hw4
  have hnd : (s.brk :: (A ++ [t])).Nodup := by rw [hL]; exact hw2.nodup
  have htA : t ∉ s.brk :: A := by
    rw [← List.cons_append] at hnd
    intro h
    exact (List.nodup_append.1 hnd).2.2 h (List.mem_singleton_self t)
  have h2t : (s2.heap t).map payload = (s.heap t).map payload := hd2 t htb
  have h4t : (s4.heap t).map payload = (s.heap t).map payload := (hd4 t).trans h2t
  rw [het] at h4t
  cases h4e : s4.heap t with
  | none => rw [h4e] at h4t; cases h4t
  | some e4 =>
    rw [h4e] at h4t
    have hp4 : e4.path = et.path := by
      have := congrArg (Option.map Prod.fst) h4t
      simpa [payload] using this
    have hfree : free_entry { s4 with cache := { s4.cache with
        index := hashtable_delete s4.cache.index e4.path } } t =
        some { s4 with heap := Function.update s4.heap t none, cache := { s4.cache with
        index := hashtable_delete s4.cache.index e4.path } } := by
      simp [free_entry, h4e]
    unfold cache_put
    simp only [hs2, he2a, if_pos hgt, hs4, h4e, hfree, Option.bind_eq_bind, Option.some_bind]
    have hdata : ∀ p, p ≠ s.brk → p ≠ t →
        (Function.update s4.heap t none p).map payload = (s.heap p).map payload := by
      intro p hpb hpt
      simp only [Function.update, hpt, dite_false]
      exact (hd4 p).trans (hd2 p hpb)
    have hnew : ∃ e, Function.update s4.heap t none s.brk = some e ∧
        payload e = (path, ct, n, content.take n) := by
      obtain ⟨e, he, hpe⟩ := same_data_some hd4 he2
      refine ⟨e, ?_, hpe.trans hp2⟩
      simp only [Function.update, Ne.symm htb, dite_false]
      exact he
    refine ⟨_, et, rfl, het, ⟨⟨?_, hw4.nodup, ?_⟩, ?_, ?_⟩, ?_, ?_, ?_, ?_, hnew, ?_, hdata⟩
    · refine dseg_frame ?_ hw4.seg
      intro q hq
      have : q ≠ t := fun h => htA (h ▸ hq)
      simp [Function.update, this]
    · intro p hp
      by_cases hpt : p = t
      · simp [Function.update, hpt]
      · simp only [Function.update, hpt, dite_false]
        exact hw4.fresh p hp
    · intro k p hk
      have hk1 : hashtable_get (hashtable_delete s4.cache.index e4.path) k = some p := hk
      rw [hashtable_get_delete, hi4] at hk1
      have hk2 : hashtable_get (hashtable_put s2.cache.index e2.path s.brk) k =
          some p ∧ e4.path ≠ k := by
        by_cases h : e4.path = k
        · rw [if_pos h] at hk1; cases hk1
        · rw [if_neg h] at hk1; exact ⟨hk1, h⟩
      obtain ⟨hk3, hkt⟩ := hk2
      rw [hashtable_get_put, hi2, hpath] at hk3
      by_cases hkp : path = k
      · rw [if_pos hkp] at hk3
        cases hk3
        refine ⟨List.mem_cons_self _ _, ?_⟩
        obtain ⟨e, he, hpe⟩ := hnew
        show (Function.update s4.heap t none s.brk).map cache_entry.path = some k
        rw [he]
        have : e.path = path := congrArg Prod.fst hpe
        simp [this, hkp]
      · rw [if_neg hkp] at hk3
        obtain ⟨hm, hpa⟩ := hi.idx k p hk3
        have hpt : p ≠ t := by
          intro h
          subst h
          have : (s.heap p).map cache_entry.path = some k := hpa
          rw [het] at this
          simp at this
          exact hkt (hp4.trans this)
        have hpA : p ∈ A := by
          rcases List.mem_append.1 hm with h | h
          · exact h
          · exact absurd (List.mem_singleton.1 h) hpt
        have hpb : p ≠ s.brk := fun h => hb (h ▸ hm)
        refine ⟨List.mem_cons_of_mem _ hpA, ?_⟩
        show (Function.update s4.heap t none p).map cache_entry.path = some k
        rw [payload_path (hdata p hpb hpt)]
        exact hpa
    · obtain ⟨h1, h2, h3, h4⟩ := hi.size
      have h5 : ((A ++ [t]).length : Int) = (A.length : Int) + 1 := by simp
      rw [h5] at h4
      refine ⟨?_, ?_, ?_, ?_⟩
      · show 1 ≤ s4.cache.max_size
        rw [hm4]; show 1 ≤ s2.cache.max_size; rw [hm2]; exact h1
      · show 0 ≤ s4.cache.cur_size - 1
        rw [hc4]; show 0 ≤ s2.cache.cur_size - 1 - 1; rw [hc2]; omega
      · show s4.cache.cur_size - 1 ≤ s4.cache.max_size
        rw [hc4, hm4]; show s2.cache.cur_size - 1 - 1 ≤ s2.cache.max_size
        rw [hc2, hm2]; omega
      · show s4.cache.cur_size - 1 ≤ ((s.brk :: A).length : Int)
        rw [hc4]; show s2.cache.cur_size - 1 - 1 ≤ _
        rw [hc2]; simp; omega
    · show hashtable_delete s4.cache.index e4.path = _
      rw [hi4, hp4]
      show hashtable_delete (hashtable_put s2.cache.index e2.path _) et.path = _
      rw [hi2, hpath]; rfl
    · show s4.cache.cur_size - 1 = _
      rw [hc4]; show s2.cache.cur_size - 1 - 1 = _
      rw [hc2]; omega
    · show s4.cache.max_size = _
      rw [hm4]; exact hm2
    · show s4.brk = _
      rw [hb4]; exact hb2
    · simp [Function.update]

theorem cache_get_miss {s : State} {k : String}
    (h : hashtable_get s.cache.index k = none) : cache_get s k = some (s, none) := by
  simp [cache_get, h]

/-- `cache_get` on a key of the index: the entry is returned and moved to the
head of the list. -/
theorem cache_get_hit {s : State} {L : List Ptr} (hi : CacheInv s L) {k : String} {p : Ptr}
    (h : hashtable_get s.cache.index k = some p) :
    ∃ s1, cache_get s k = some (s1, some p) ∧ CacheInv s1 (p :: L.erase p) ∧
      s1.cache.index = s.cache.index ∧ s1.cache.cur_size = s.cache.cur_size ∧
      s1.cache.max_size = s.cache.max_size ∧ s1.brk = s.brk ∧
      same_data s.heap s1.heap := by
  obtain ⟨hm, _⟩ := hi.idx k p h
  obtain ⟨s1, hs1, hw1, hi1, hm1, hc1, hb1, hd1⟩ := dllist_move_to_head_spec hi.wf hm
  refine ⟨s1, by simp [cache_get, h, hs1], ⟨hw1, ?_, ?_⟩, hi1, hc1, hm1, hb1, hd1⟩
  · intro k1 q hq
    rw [hi1] at hq
    obtain ⟨hqm, hqp⟩ := hi.idx k1 q hq
    refine ⟨?_, ?_⟩
    · by_cases hqe : q = p
      · rw [hqe]; exact List.mem_cons_self _ _
      · exact List.mem_cons_of_mem _ ((List.mem_erase_of_ne hqe).2 hqm)
    · show (s1.heap q).map cache_entry.path = some k1
      rw [payload_path (hd1 q)]; exact hqp
  · obtain ⟨h1, h2, h3, h4⟩ := hi.size
    have hlen : ((p :: L.erase p).length : Int) = (L.length : Int) := by
      have := List.length_erase_of_mem hm
      have hpos : 0 < L.length := List.length_pos_of_mem hm
      simp only [List.length_cons, this]
      omega
    refine ⟨by rw [hm1]; exact h1, by rw [hc1]; exact h2, by rw [hc1, hm1]; exact h3, ?_⟩
    rw [hc1, hlen]; exact h4

theorem cache_create_inv (max_size hashsize : Int) (h : 1 ≤ max_size) :
    CacheInv (cache_create max_size hashsize) [] := by
  refine ⟨⟨⟨rfl, rfl⟩, List.nodup_nil, fun _ _ => rfl⟩, ?_, ?_⟩
  · intro k p hk
    simp [cache_create, hashtable_create, hashtable_get] at hk
  · exact ⟨h, le_refl _, by show (0 : Int) ≤ max_size; omega, le_refl _⟩

/-- Every client call succeeds on a state that satisfies the invariant, and
keeps the invariant and `max_size`. -/
theorem step_inv {s : State} {L : List Ptr} (hi : CacheInv s L) (op : Op) :
    ∃ s1 L1, step s op = some s1 ∧ CacheInv s1 L1 ∧
      s1.cache.max_size = s.cache.max_size := by
  cases op with
  | put path ct content n =>
    by_cases hc : s.cache.cur_size + 1 ≤ s.cache.max_size
    · obtain ⟨s1, hs1, hi1, _, _, hm1, _⟩ := cache_put_keep hi hc path ct content n
      exact ⟨s1, _, hs1, hi1, hm1⟩
    · have hc1 : s.cache.max_size < s.cache.cur_size + 1 := by omega
      obtain ⟨A, t, hL⟩ := exists_snoc (put_nonempty hi hc1)
      subst hL
      obtain ⟨s1, et, hs1, _, hi1, _, _, hm1, _⟩ := cache_put_evict hi hc1 path ct content n
      exact ⟨s1, _, hs1, hi1, hm1⟩
  | get path =>
    cases hg : hashtable_get s.cache.index path with
    | none => exact ⟨s, L, by simp [step, cache_get_miss hg], hi, rfl⟩
    | some p =>
      obtain ⟨s1, hs1, hi1, _, _, hm1, _⟩ := cache_get_hit hi hg
      exact ⟨s1, _, by simp [step, hs1], hi1, hm1⟩

theorem run_inv {s : State} {L : List Ptr} (hi : CacheInv s L) (ops : List Op) :
    ∃ s1 L1, run s ops = some s1 ∧ CacheInv s1 L1 ∧
      s1.cache.max_size = s.cache.max_size := by
  induction ops generalizing s L with
  | nil => exact ⟨s, L, rfl, hi, rfl⟩
  | cons op ops ih =>
    obtain ⟨s1, L1, hs1, hi1, hm1⟩ := step_inv hi op
    obtain ⟨s2, L2, hs2, hi2, hm2⟩ := ih hi1
    exact ⟨s2, L2, by simp [run, hs1, hs2], hi2, hm2.trans hm1⟩

theorem run_append (s : State) (a b : List Op) :
    run s (a ++ b) = (run s a).bind fun s1 => run s1 b := by
  induction a generalizing s with
  | nil => rfl
  | cons op a ih =>
    simp only [List.cons_append, run]
    cases step s op with
    | none => rfl
    | some s1 => simpa using ih s1

theorem WF_length_le {s : State} {L : List Ptr} (hw : WF s L) : L.length ≤ s.brk := by
  have hsub : L.toFinset ⊆ Finset.range s.brk := by
    intro p hp
    rw [List.mem_toFinset] at hp
    rw [Finset.mem_range]
    by_contra hlt
    obtain ⟨e, he⟩ := dseg_alloc hw.seg p hp
    rw [hw.fresh p (Nat.le_of_not_lt hlt)] at he
    cases he
  have := Finset.card_le_card hsub
  rwa [List.toFinset_card_of_nodup hw.nodup, Finset.card_range] at this

/-- The list read off the heap is the list of the invariant. -/
theorem WF_entries {s : State} {L : List Ptr} (hw : WF s L) : dllist_entries s = L :=
  dseg_walk hw.seg (WF_length_le hw)

theorem is_put_true {op : Op} (h : is_put op = true) : ∃ k t c n, op = Op.put k t c n := by
  cases op with
  | put k t c n => exact ⟨k, t, c, n, rfl⟩
  | get k => cases h

theorem is_put_false {op : Op} (h : is_put op = false) : ∃ k, op = Op.get k := by
  cases op with
  | put k t c n => cases h
  | get k => exact ⟨k, rfl⟩

theorem reachable_inv {s : State} (hr : Reachable s) : ∃ L, CacheInv s L := by
  obtain ⟨m, hs, ops, hm, hrun⟩ := hr
  obtain ⟨s1, L1, hs1, hi1, _⟩ := run_inv (cache_create_inv m hs hm) ops
  rw [hrun] at hs1; cases hs1
  exact ⟨L1, hi1⟩

/-- In a state that satisfies the invariant `cache_get` succeeds, returns what
the index holds for the key, keeps the index, and a returned entry has the
key as its path. -/
theorem cache_get_ok {s : State} {L : List Ptr} (hi : CacheInv s L) (k : String) :
    ∃ s1 L1, cache_get s k = some (s1, hashtable_get s.cache.index k) ∧ CacheInv s1 L1 ∧
      s1.cache.index = s.cache.index ∧ same_data s.heap s1.heap ∧
      ∀ p, hashtable_get s.cache.index k = some p → path_at s1 p = some k := by
  cases hg : hashtable_get s.cache.index k with
  | none =>
    exact ⟨s, L, cache_get_miss hg, hi, rfl, same_data_refl _, fun p hp => by cases hp⟩
  | some p =>
    obtain ⟨s1, hs1, hi1, hx1, _, _, _, hd1⟩ := cache_get_hit hi hg
    refine ⟨s1, _, hs1, hi1, hx1, hd1, ?_⟩
    intro q hq
    cases hq
    show (s1.heap p).map cache_entry.path = some k
    rw [payload_path (hd1 p)]
    exact (hi.idx k p hg).2

/-- Calls of `cache_get` succeed and keep the index and the entries' data. -/
theorem gets_preserve {s : State} {L : List Ptr} (hi : CacheInv s L) (gs : List Op)
    (hg : only_gets gs) :
    ∃ s1 L1, run s gs = some s1 ∧ CacheInv s1 L1 ∧ s1.cache.index = s.cache.index ∧
      same_data s.heap s1.heap := by
  induction gs generalizing s L with
  | nil => exact ⟨s, L, rfl, hi, rfl, same_data_refl _⟩
  | cons op gs ih =>
    obtain ⟨k, rfl⟩ := is_put_false (hg op (List.mem_cons_self _ _))
    obtain ⟨s1, L1, hs1, hi1, hx1, hd1, _⟩ := cache_get_ok hi k
    obtain ⟨s2, L2, hs2, hi2, hx2, hd2⟩ :=
      ih hi1 (fun op hop => hg op (List.mem_cons_of_mem _ hop))
    exact ⟨s2, L2, by simp [run, step, hs1, hs2], hi2, hx2.trans hx1, same_data_trans hd1 hd2⟩

theorem put_keys_append (a b : List Op) : put_keys (a ++ b) = put_keys a ++ put_keys b := by
  induction a with
  | nil => rfl
  | cons op a ih => cases op <;> simp [put_keys, ih]

theorem put_keys_length {ops : List Op} (h : only_puts ops) :
    (put_keys ops).length = ops.length := by
  induction ops with
  | nil => rfl
  | cons op ops ih =>
    obtain ⟨k, t, c, n, rfl⟩ := is_put_true (h op (List.mem_cons_self _ _))
    simp [put_keys, ih (fun op hop => h op (List.mem_cons_of_mem _ hop))]

/-- Below capacity, puts of pairwise distinct keys pile up in the list, newest
first, and every one is indexed. -/
theorem puts_below_capacity (max_size hashsize : Int) (hm : 1 ≤ max_size) (ops : List Op)
    (hp : only_puts ops) (hk : (put_keys ops).Nodup) (hlen : (ops.length : Int) ≤ max_size) :
    ∃ s L, run (cache_create max_size hashsize) ops = some s ∧ CacheInv s L ∧
      index_complete s L ∧ s.cache.cur_size = (ops.length : Int) ∧
      s.cache.max_size = max_size ∧
      L.map (path_at s) = (put_keys ops).reverse.map some ∧
      ∀ k, k ∉ put_keys ops → hashtable_get s.cache.index k = none := by
  induction ops using List.reverseRecOn with
  | nil =>
    have hic : index_complete (cache_create max_size hashsize) [] := by
      intro p hp
      cases hp
    exact ⟨_, [], rfl, cache_create_inv _ _ hm, hic, rfl, rfl, rfl, fun k _ => rfl⟩
  | append_singleton ops op ih =>
    obtain ⟨k, t, c, n, rfl⟩ := is_put_true (hp op (by simp))
    rw [put_keys_append] at hk
    have hk0 : (put_keys ops).Nodup := (List.nodup_append.1 hk).1
    have hknew : k ∉ put_keys ops := fun h =>
      (List.nodup_append.1 hk).2.2 h (by simp [put_keys])
    have hlen0 : (ops.length : Int) + 1 ≤ max_size := by
      simpa using hlen
    obtain ⟨s, L, hs, hi, hic, hc, hmx, hpa, hno⟩ :=
      ih (fun op hop => hp op (by simp [hop])) hk0 (by omega)
    have hkeep : s.cache.cur_size + 1 ≤ s.cache.max_size := by rw [hc, hmx]; exact hlen0
    obtain ⟨s1, hs1, hi1, hx1, hc1, hm1, hb1, ⟨e, he, hpe⟩, hd1⟩ := cache_put_keep hi hkeep k t c n
    have hbL : s.brk ∉ L := by
      intro h
      obtain ⟨e0, he0⟩ := dseg_alloc hi.wf.seg _ h
      rw [hi.wf.fresh _ (le_refl _)] at he0; cases he0
    have hpath1 : ∀ p ∈ L, path_at s1 p = path_at s p := by
      intro p hpL
      exact payload_path (hd1 p (fun h => hbL (h ▸ hpL)))
    have hnewpath : path_at s1 s.brk = some k := by
      show (s1.heap s.brk).map cache_entry.path = some k
      rw [he]
      have : e.path = k := congrArg Prod.fst hpe
      simp [this]
    have hLk : ∀ p ∈ L, path_at s p ≠ some k := by
      intro p hpL hpk
      have : path_at s p ∈ L.map (path_at s) := List.mem_map_of_mem _ hpL
      rw [hpa, hpk] at this
      simp at this
      exact hknew this
    refine ⟨s1, s.brk :: L, ?_, hi1, ?_, ?_, hm1.trans hmx, ?_, ?_⟩
    · rw [run_append, hs]
      simp [run, step, hs1]
    · intro p hpm
      rcases List.mem_cons.1 hpm with rfl | hpL
      · exact ⟨k, hnewpath, by rw [hx1, hashtable_get_put]; simp⟩
      · obtain ⟨kp, hkp, hgp⟩ := hic p hpL
        refine ⟨kp, (hpath1 p hpL).trans hkp, ?_⟩
        rw [hx1, hashtable_get_put]
        have : k ≠ kp := fun h => hLk p hpL (h ▸ hkp)
        rw [if_neg this]; exact hgp
    · rw [hc1, hc]; simp
    · rw [put_keys_append]
      simp only [put_keys, List.reverse_append, List.reverse_cons, List.reverse_nil,
        List.nil_append, List.singleton_append, List.map_cons]
      rw [← hpa, hnewpath]
      congr 1
      exact List.map_congr_left hpath1
    · intro k1 hk1
      rw [put_keys_append] at hk1
      simp [put_keys] at hk1
      rw [hx1, hashtable_get_put, if_neg (Ne.symm hk1.2)]
      exact hno k1 hk1.1

theorem exists_snoc_op {L : List Op} (h : L ≠ []) : ∃ A u, L = A ++ [u] :=
  ⟨L.dropLast, L.getLast h, (List.dropLast_concat_getLast h).symm⟩

/-- C1. LRU correctness: for every capacity `N ≥ 1` and every `N + 1` calls of
`cache_put` with pairwise distinct keys `k1 .. k(N+1)` on the cache made by
`cache_create`, with no `cache_get` in between, the calls succeed, and
afterwards (also after any further `cache_get` calls) `cache_get k1` returns
`NULL` and `cache_get ki` returns an entry whose path is `ki` for every other
key `ki` of the sequence. -/
theorem lru_evicts_first_key (N : Nat) (hN : 1 ≤ N) (hashsize : Int) (ops : List Op)
    (hp : only_puts ops) (hlen : ops.length = N + 1) (hk : (put_keys ops).Nodup) :
    ∃ s, run (cache_create (N : Int) hashsize) ops = some s ∧
      ∀ gs, only_gets gs → ∃ s1, run s gs = some s1 ∧
        (∀ k1, (put_keys ops).head? = some k1 → ∃ s2, cache_get s1 k1 = some (s2, none)) ∧
        (∀ k ∈ (put_keys ops).tail,
          ∃ s2 p, cache_get s1 k = some (s2, some p) ∧ path_at s2 p = some k) := by
  have hne : ops ≠ [] := by
    intro h; rw [h] at hlen; simp at hlen
  obtain ⟨ps, op, rfl⟩ := exists_snoc_op hne
  obtain ⟨k, t, c, n, rfl⟩ := is_put_true (hp op (by simp))
  have hps : only_puts ps := fun op hop => hp op (by simp [hop])
  have hlen0 : ps.length = N := by simpa using hlen
  rw [put_keys_append] at hk
  have hk0 : (put_keys ps).Nodup := (List.nodup_append.1 hk).1
  have hknew : k ∉ put_keys ps := fun h =>
    (List.nodup_append.1 hk).2.2 h (by simp [put_keys])
  obtain ⟨s0, L, hs0, hi0, hic0, hc0, hm0, hpa0, hno0⟩ :=
    puts_below_capacity (N : Int) hashsize (by exact_mod_cast hN) ps hps hk0
      (by rw [hlen0])
  have hfull : s0.cache.max_size < s0.cache.cur_size + 1 := by
    rw [hc0, hm0, hlen0]; omega
  obtain ⟨A, tl, rfl⟩ := exists_snoc (put_nonempty hi0 hfull)
  obtain ⟨s, et, hs, het, hi, hx, _, _, _, ⟨e, he, hpe⟩, _, _⟩ :=
    cache_put_evict hi0 hfull k t c n
  -- the keys of the first `N` puts: `k1` first
  have hkl : (put_keys ps).length = N := by rw [put_keys_length hps, hlen0]
  obtain ⟨k1, rest, hkeys⟩ : ∃ k1 rest, put_keys ps = k1 :: rest := by
    cases hks : put_keys ps with
    | nil => rw [hks] at hkl; simp at hkl; omega
    | cons k1 rest => exact ⟨k1, rest, rfl⟩
  rw [hkeys] at hpa0 hk0 hknew
  have hk1rest : k1 ∉ rest := (List.nodup_cons.1 hk0).1
  -- the tail of the list holds `k1`
  have htl : et.path = k1 := by
    have h1 : (A ++ [tl]).map (path_at s0) = rest.reverse.map some ++ [some k1] := by
      rw [hpa0]; simp
    rw [List.map_append] at h1
    have h2 := List.append_inj_right' h1 (by simp)
    simp only [List.map_cons, List.map_nil, List.cons.injEq, and_true] at h2
    have h3 : (s0.heap tl).map cache_entry.path = some k1 := h2
    rw [het] at h3
    simpa using h3
  have hidx : ∀ key, hashtable_get s.cache.index key =
      if k1 = key then none else if k = key then some s0.brk
        else hashtable_get s0.cache.index key := by
    intro key
    rw [hx, hashtable_get_delete, htl, hashtable_get_put]
  refine ⟨s, ?_, ?_⟩
  · rw [run_append, hs0]
    simp [run, step, hs]
  · intro gs hgs
    obtain ⟨s1, L1, hs1, hi1, hx1, _⟩ := gets_preserve hi gs hgs
    refine ⟨s1, hs1, ?_, ?_⟩
    · intro key hkey
      rw [put_keys_append, hkeys] at hkey
      simp at hkey
      obtain ⟨s2, _, hg2, _⟩ := cache_get_ok hi1 key
      rw [hx1, hidx, if_pos hkey] at hg2
      exact ⟨s2, hg2⟩
    · intro key hkey
      rw [put_keys_append, hkeys] at hkey
      simp only [put_keys, List.cons_append, List.tail_cons, List.mem_append,
        List.mem_singleton] at hkey
      obtain ⟨s2, _, hg2, _, _, _, hpath2⟩ := cache_get_ok hi1 key
      have hk1key : k1 ≠ key := by
        rcases hkey with h | h
        · exact fun h1 => hk1rest (h1 ▸ h)
        · rw [h]; exact fun h1 => hknew (by simp [h1])
      have hres : ∃ p, hashtable_get s1.cache.index key = some p := by
        rw [hx1, hidx, if_neg hk1key]
        rcases hkey with h | h
        · have hkk : k ≠ key := fun h1 => hknew (by simp [h1, h])
          rw [if_neg hkk]
          have hmem : some key ∈ (A ++ [tl]).map (path_at s0) := by
            rw [hpa0]; simp [h]
          obtain ⟨p, hpL, hpp⟩ := List.mem_map.1 hmem
          obtain ⟨kp, hkp, hgp⟩ := hic0 p hpL
          rw [hpp] at hkp
          cases hkp
          exact ⟨p, hgp⟩
        · rw [if_pos h.symm]; exact ⟨_, rfl⟩
      obtain ⟨p, hp1⟩ := hres
      rw [hp1] at hg2
      exact ⟨s2, p, hg2, hpath2 p hp1⟩

theorem lru_evicts_first_key_witness :
    (1 ≤ 1 ∧ only_puts [Op.put "/a" "text/html" [1] 1, Op.put "/b" "text/html" [2] 1] ∧
      [Op.put "/a" "text/html" [1] 1, Op.put "/b" "text/html" [2] 1].length = 1 + 1 ∧
      (put_keys [Op.put "/a" "text/html" [1] 1, Op.put "/b" "text/html" [2] 1]).Nodup) ∧
    ∃ s, run (cache_create ((1 : Nat) : Int) 0)
        [Op.put "/a" "text/html" [1] 1, Op.put "/b" "text/html" [2] 1] = some s ∧
      ∀ gs, only_gets gs → ∃ s1, run s gs = some s1 ∧
        (∀ k1, (put_keys [Op.put "/a" "text/html" [1] 1,
            Op.put "/b" "text/html" [2] 1]).head? = some k1 →
          ∃ s2, cache_get s1 k1 = some (s2, none)) ∧
        (∀ k ∈ (put_keys [Op.put "/a" "text/html" [1] 1, Op.put "/b" "text/html" [2] 1]).tail,
          ∃ s2 p, cache_get s1 k = some (s2, some p) ∧ path_at s2 p = some k) :=
  ⟨⟨by decide, by decide, by decide, by decide⟩,
    lru_evicts_first_key 1 (by decide) 0 _ (by decide) (by decide) (by decide)⟩

/-- C2. Promotion: for pairwise distinct keys `a`, `b`, `c`, on a cache of
capacity 2 the calls `cache_put a`, `cache_put b`, `cache_get a`,
`cache_put c` succeed and evict `b`, not `a`: the list then holds `c` and `a`,
and afterwards (also after any further `cache_get` calls) `cache_get a`
returns an entry with path `a`, `cache_get b` returns `NULL`, and
`cache_get c` returns an entry with path `c`. -/
theorem promotion_protects_read_entry (a b c : String) (hab : a ≠ b) (hac : a ≠ c)
    (hbc : b ≠ c) (hashsize : Int) (ta tb tc : String) (ca cb cc : List UInt8)
    (na nb nc : Nat) :
    ∃ s, run (cache_create 2 hashsize)
        [Op.put a ta ca na, Op.put b tb cb nb, Op.get a, Op.put c tc cc nc] = some s ∧
      (dllist_entries s).map (path_at s) = [some c, some a] ∧
      ∀ gs, only_gets gs → ∃ s1, run s gs = some s1 ∧
        (∃ s2 p, cache_get s1 a = some (s2, some p) ∧ path_at s2 p = some a) ∧
        (∃ s2, cache_get s1 b = some (s2, none)) ∧
        (∃ s2 p, cache_get s1 c = some (s2, some p) ∧ path_at s2 p = some c) := by
  -- the two puts below capacity
  obtain ⟨s2, L, hs2, hi2, hic2, hc2, hm2, hpa2, hno2⟩ :=
    puts_below_capacity 2 hashsize (by decide) [Op.put a ta ca na, Op.put b tb cb nb]
      (by intro op hop; simp at hop; rcases hop with rfl | rfl <;> rfl)
      (by simp [put_keys, hab]) (by simp)
  simp only [put_keys, List.reverse_cons, List.reverse_nil, List.nil_append,
    List.singleton_append, List.map_cons, List.map_nil] at hpa2
  obtain ⟨q, p, rfl⟩ : ∃ q p, L = [q, p] := by
    have hlen := congrArg List.length hpa2
    simp only [List.length_map, List.length_cons, List.length_nil] at hlen
    exact List.length_eq_two.1 hlen
  simp only [List.map_cons, List.map_nil, List.cons.injEq, and_true] at hpa2
  obtain ⟨hq, hp⟩ := hpa2
  have hqp : q ≠ p := by
    intro h; rw [h, hp] at hq; cases hq; exact hab rfl
  have hga : hashtable_get s2.cache.index a = some p := by
    obtain ⟨k, hk, hg⟩ := hic2 p (by simp)
    rw [hp] at hk; cases hk; exact hg
  -- the read of `a` moves it in front of `b`
  obtain ⟨s3, hs3, hi3, hx3, hc3, hm3, hb3, hd3⟩ := cache_get_hit hi2 hga
  have her : p :: [q, p].erase p = [p] ++ [q] := by
    simp [List.erase_cons, hqp]
  rw [her] at hi3
  have hfull : s3.cache.max_size < s3.cache.cur_size + 1 := by
    rw [hc3, hm3, hc2, hm2]; simp
  -- the put of `c` evicts `b`
  obtain ⟨s4, et, hs4, het, hi4, hx4, _, _, _, ⟨e, he, hpe⟩, _, hd4⟩ :=
    cache_put_evict hi3 hfull c tc cc nc
  have hq3 : path_at s3 q = some b := (payload_path (hd3 q)).trans hq
  have hp3 : path_at s3 p = some a := (payload_path (hd3 p)).trans hp
  have hetb : et.path = b := by
    have : (s3.heap q).map cache_entry.path = some b := hq3
    rw [het] at this; simpa using this
  have hidx : ∀ key, hashtable_get s4.cache.index key =
      if b = key then none else if c = key then some s3.brk
        else hashtable_get s2.cache.index key := by
    intro key
    rw [hx4, hashtable_get_delete, hetb, hashtable_get_put, hx3]
  have hpb : p ≠ s3.brk := by
    intro h
    have h1 : s3.heap p = none := by rw [h]; exact hi3.wf.fresh _ (le_refl _)
    have h2 : (s3.heap p).map cache_entry.path = some a := hp3
    rw [h1] at h2; cases h2
  have hp4 : path_at s4 p = some a := (payload_path (hd4 p hpb hqp.symm)).trans hp3
  have hnew4 : path_at s4 s3.brk = some c := by
    show (s4.heap s3.brk).map cache_entry.path = some c
    rw [he]
    have : e.path = c := congrArg Prod.fst hpe
    simp [this]
  refine ⟨s4, ?_, ?_, ?_⟩
  · have : [Op.put a ta ca na, Op.put b tb cb nb, Op.get a, Op.put c tc cc nc] =
        [Op.put a ta ca na, Op.put b tb cb nb] ++ [Op.get a, Op.put c tc cc nc] := rfl
    rw [this, run_append, hs2]
    simp [run, step, hs3, hs4]
  · rw [WF_entries hi4.wf]
    simp [hnew4, hp4]
  · intro gs hgs
    obtain ⟨s5, L5, hs5, hi5, hx5, _⟩ := gets_preserve hi4 gs hgs
    refine ⟨s5, hs5, ?_, ?_, ?_⟩
    · obtain ⟨s6, _, hg6, _, _, _, hpath6⟩ := cache_get_ok hi5 a
      have : hashtable_get s5.cache.index a = some p := by
        rw [hx5, hidx, if_neg (Ne.symm hab), if_neg (Ne.symm hac)]; exact hga
      rw [this] at hg6
      exact ⟨s6, p, hg6, hpath6 p this⟩
    · obtain ⟨s6, _, hg6, _⟩ := cache_get_ok hi5 b
      have : hashtable_get s5.cache.index b = none := by
        rw [hx5, hidx, if_pos rfl]
      rw [this] at hg6
      exact ⟨s6, hg6⟩
    · obtain ⟨s6, _, hg6, _, _, _, hpath6⟩ := cache_get_ok hi5 c
      have : hashtable_get s5.cache.index c = some s3.brk := by
        rw [hx5, hidx, if_neg hbc, if_pos rfl]
      rw [this] at hg6
      exact ⟨s6, _, hg6, hpath6 _ this⟩

theorem promotion_protects_read_entry_witness :
    ("/a" ≠ "/b" ∧ "/a" ≠ "/c" ∧ "/b" ≠ "/c") ∧
    ∃ s, run (cache_create 2 0)
        [Op.put "/a" "text/html" [1] 1, Op.put "/b" "text/html" [2] 1, Op.get "/a",
          Op.put "/c" "text/html" [3] 1] = some s ∧
      (dllist_entries s).map (path_at s) = [some "/c", some "/a"] ∧
      ∀ gs, only_gets gs → ∃ s1, run s gs = some s1 ∧
        (∃ s2 p, cache_get s1 "/a" = some (s2, some p) ∧ path_at s2 p = some "/a") ∧
        (∃ s2, cache_get s1 "/b" = some (s2, none)) ∧
        (∃ s2 p, cache_get s1 "/c" = some (s2, some p) ∧ path_at s2 p = some "/c") :=
  ⟨⟨by decide, by decide, by decide⟩,
    promotion_protects_read_entry "/a" "/b" "/c" (by decide) (by decide) (by decide) 0
      "text/html" "text/html" "text/html" [1] [2] [3] 1 1 1⟩

theorem touch_cons {L L0 : List Ptr} {p : Ptr} {now : Nat} {touch : Ptr → Nat}
    (hsub : L0.Sublist L) (hp : p ∉ L0)
    (hs : L.Pairwise (fun p q => touch q < touch p)) (hpast : ∀ q ∈ L, touch q < now) :
    (p :: L0).Pairwise (fun a b => Function.update touch p now b < Function.update touch p now a) ∧
      ∀ q ∈ p :: L0, Function.update touch p now q < now + 1 := by
  have hq : ∀ q ∈ L0, Function.update touch p now q = touch q := by
    intro q hq
    have : q ≠ p := fun h => hp (h ▸ hq)
    simp [Function.update, this]
  refine ⟨List.pairwise_cons.2 ⟨?_, ?_⟩, ?_⟩
  · intro q hqm
    rw [hq q hqm, Function.update_same]
    exact hpast q (hsub.subset hqm)
  · refine List.Pairwise.imp_of_mem ?_ (hs.sublist hsub)
    intro a b ha hb hab
    rw [hq a ha, hq b hb]; exact hab
  · intro q hqm
    rcases List.mem_cons.1 hqm with rfl | hqm
    · rw [Function.update_same]; exact Nat.lt_succ_self _
    · rw [hq q hqm]
      exact Nat.lt_succ_of_lt (hpast q (hsub.subset hqm))

theorem cache_get_result_eq {s : State} {L : List Ptr} (hi : CacheInv s L) (k : String) :
    cache_get_result s k = hashtable_get s.cache.index k := by
  obtain ⟨s1, _, hs1, _⟩ := cache_get_ok hi k
  simp [cache_get_result, hs1]

/-- One call keeps the list ordered by touch time; an entry that the call
removes from the list was touched before every entry that remains. -/
theorem touch_step {s : State} {L : List Ptr} {now : Nat} {touch : Ptr → Nat}
    (ht : TouchInv s L now touch) (op : Op) :
    ∃ s1 L1, step s op = some s1 ∧ TouchInv s1 L1 (now + 1) (touch_after s op now touch) ∧
      s1.cache.max_size = s.cache.max_size ∧
      ∀ e ∈ L, e ∉ L1 → ∀ q ∈ L1,
        touch_after s op now touch e < touch_after s op now touch q := by
  have hi := ht.inv
  have hbL : s.brk ∉ L := by
    intro h
    obtain ⟨e0, he0⟩ := dseg_alloc hi.wf.seg _ h
    rw [hi.wf.fresh _ (le_refl _)] at he0; cases he0
  cases op with
  | put path ct content n =>
    have hta : touch_after s (Op.put path ct content n) now touch =
        Function.update touch s.brk now := rfl
    rw [hta]
    by_cases hc : s.cache.cur_size + 1 ≤ s.cache.max_size
    · obtain ⟨s1, hs1, hi1, _, _, hm1, _⟩ := cache_put_keep hi hc path ct content n
      obtain ⟨h1, h2⟩ := touch_cons (List.Sublist.refl L) hbL ht.sorted ht.past
      refine ⟨s1, _, hs1, ⟨hi1, h1, h2⟩, hm1, ?_⟩
      intro e he hne
      exact absurd (List.mem_cons_of_mem _ he) hne
    · have hc1 : s.cache.max_size < s.cache.cur_size + 1 := by omega
      obtain ⟨A, t, hL⟩ := exists_snoc (put_nonempty hi hc1)
      subst hL
      obtain ⟨s1, et, hs1, _, hi1, _, _, hm1, _⟩ := cache_put_evict hi hc1 path ct content n
      have hsub : A.Sublist (A ++ [t]) := List.sublist_append_left A [t]
      have hbA : s.brk ∉ A := fun h => hbL (hsub.subset h)
      obtain ⟨h1, h2⟩ := touch_cons hsub hbA ht.sorted ht.past
      refine ⟨s1, _, hs1, ⟨hi1, h1, h2⟩, hm1, ?_⟩
      intro e he hne q hq
      have het : e = t := by
        rcases List.mem_append.1 he with h | h
        · exact absurd (List.mem_cons_of_mem _ h) hne
        · exact List.mem_singleton.1 h
      subst het
      have heb : e ≠ s.brk := fun h => hbL (h ▸ he)
      have h3 : Function.update touch s.brk now e = touch e := by
        simp [Function.update, heb]
      rw [h3]
      rcases List.mem_cons.1 hq with rfl | hqA
      · rw [Function.update_same]; exact ht.past e he
      · have hqb : q ≠ s.brk := fun h => hbA (h ▸ hqA)
        have h4 : Function.update touch s.brk now q = touch q := by
          simp [Function.update, hqb]
        rw [h4]
        exact (List.pairwise_append.1 ht.sorted).2.2 q hqA e (List.mem_singleton_self e)
  | get k =>
    have hres := cache_get_result_eq hi k
    cases hg : hashtable_get s.cache.index k with
    | none =>
      have hta : touch_after s (Op.get k) now touch = touch := by
        simp [touch_after, touched, hres, hg]
      rw [hta]
      refine ⟨s, L, by simp [step, cache_get_miss hg], ⟨hi, ht.sorted, ?_⟩, rfl, ?_⟩
      · intro p hp; exact Nat.lt_succ_of_lt (ht.past p hp)
      · intro e he hne; exact absurd he hne
    | some p =>
      have hta : touch_after s (Op.get k) now touch = Function.update touch p now := by
        simp [touch_after, touched, hres, hg]
      rw [hta]
      obtain ⟨s1, hs1, hi1, _, _, hm1, _⟩ := cache_get_hit hi hg
      have hpe : p ∉ L.erase p := fun h => ((hi.wf.nodup.mem_erase_iff).1 h).1 rfl
      obtain ⟨h1, h2⟩ := touch_cons (List.erase_sublist p L) hpe ht.sorted ht.past
      refine ⟨s1, _, by simp [step, hs1], ⟨hi1, h1, h2⟩, hm1, ?_⟩
      intro e he hne
      exfalso
      apply hne
      by_cases hep : e = p
      · rw [hep]; exact List.mem_cons_self _ _
      · exact List.mem_cons_of_mem _ ((List.mem_erase_of_ne hep).2 he)

theorem run_touch_inv {s : State} {L : List Ptr} {now : Nat} {touch : Ptr → Nat}
    (ht : TouchInv s L now touch) (ops : List Op) :
    ∃ s1 L1 touch1, run_touch s now touch ops = some (s1, touch1) ∧
      TouchInv s1 L1 (now + ops.length) touch1 := by
  induction ops generalizing s L now touch with
  | nil => exact ⟨s, L, touch, rfl, ht⟩
  | cons op ops ih =>
    obtain ⟨s1, L1, hs1, ht1, _, _⟩ := touch_step ht op
    obtain ⟨s2, L2, touch2, hs2, ht2⟩ := ih ht1
    refine ⟨s2, L2, touch2, by simp [run_touch, hs1, hs2], ?_⟩
    have : now + (op :: ops).length = now + 1 + ops.length := by
      simp only [List.length_cons]; omega
    rw [this]; exact ht2

theorem run_touch_append (s : State) (now : Nat) (touch : Ptr → Nat) (a b : List Op) :
    run_touch s now touch (a ++ b) =
      (run_touch s now touch a).bind fun r => run_touch r.1 (now + a.length) r.2 b := by
  induction a generalizing s now touch with
  | nil => rfl
  | cons op a ih =>
    simp only [List.cons_append, run_touch]
    cases step s op with
    | none => rfl
    | some s1 =>
      have h1 : now + ((op :: a).length) = now + 1 + a.length := by
        simp only [List.length_cons]; omega
      rw [h1]
      exact ih s1 (now + 1) _

/-- The clocked run visits the same states as `run`. -/
theorem run_touch_state (s : State) (now : Nat) (touch : Ptr → Nat) (ops : List Op) :
    (run_touch s now touch ops).map Prod.fst = run s ops := by
  induction ops generalizing s now touch with
  | nil => rfl
  | cons op ops ih =>
    simp only [run_touch, run]
    cases step s op with
    | none => rfl
    | some s1 => simpa using ih s1 _ _

theorem touch_create (max_size hashsize : Int) (hm : 1 ≤ max_size) :
    TouchInv (cache_create max_size hashsize) [] 1 (fun _ => 0) :=
  ⟨cache_create_inv max_size hashsize hm, List.Pairwise.nil, fun p hp => by cases hp⟩

/-- C3. Strict LRU order: for every capacity at least one and every sequence
of `cache_put` calls (pairwise distinct keys) and `cache_get` calls, the calls
succeed and in the state reached the recency list, read from head to tail, is
strictly ordered by the time of the most recent touch, most recent first (a
touch is the entry's own put or a `cache_get` hit on it).  Hence whenever the
last call removed an entry from the list (a `cache_put` that evicts), every
entry that remains in the list was touched more recently than the removed
one.  The proof does not use the distinctness of the keys. -/
theorem recency_list_ordered_by_touch (max_size hashsize : Int) (hm : 1 ≤ max_size)
    (ops : List Op) (hk : (put_keys ops).Nodup) :
    ∃ s touch,
      run_touch (cache_create max_size hashsize) 1 (fun _ => 0) ops = some (s, touch) ∧
      run (cache_create max_size hashsize) ops = some s ∧
      (dllist_entries s).Pairwise (fun p q => touch q < touch p) ∧
      ∀ pre op, ops = pre ++ [op] →
        ∃ s0, run (cache_create max_size hashsize) pre = some s0 ∧
          ∀ e ∈ dllist_entries s0, e ∉ dllist_entries s →
            ∀ q ∈ dllist_entries s, touch e < touch q := by
  obtain ⟨s, L, touch, hs, ht⟩ := run_touch_inv (touch_create max_size hashsize hm) ops
  have hrun : run (cache_create max_size hashsize) ops = some s := by
    rw [← run_touch_state _ 1 (fun _ => 0), hs]; rfl
  refine ⟨s, touch, hs, hrun, ?_, ?_⟩
  · rw [WF_entries ht.inv.wf]; exact ht.sorted
  · intro pre op hops
    subst hops
    obtain ⟨s0, L0, touch0, hs0, ht0⟩ :=
      run_touch_inv (touch_create max_size hashsize hm) pre
    obtain ⟨s1, L1, hs1, ht1, _, hev⟩ := touch_step ht0 op
    have hrun0 : run (cache_create max_size hashsize) pre = some s0 := by
      rw [← run_touch_state _ 1 (fun _ => 0), hs0]; rfl
    rw [run_touch_append, hs0] at hs
    simp only [Option.some_bind, run_touch, hs1, Option.some.injEq, Prod.mk.injEq] at hs
    obtain ⟨h1, h2⟩ := hs
    subst h1
    subst h2
    refine ⟨s0, hrun0, ?_⟩
    rw [WF_entries ht0.inv.wf, WF_entries ht1.inv.wf]
    exact hev

theorem recency_list_ordered_by_touch_witness :
    ((1 : Int) ≤ 2 ∧ (put_keys [Op.put "/a" "text/html" [1] 1, Op.put "/b" "text/html" [2] 1,
        Op.get "/a", Op.put "/c" "text/html" [3] 1]).Nodup) ∧
    ∃ s touch,
      run_touch (cache_create 2 0) 1 (fun _ => 0)
        [Op.put "/a" "text/html" [1] 1, Op.put "/b" "text/html" [2] 1,
          Op.get "/a", Op.put "/c" "text/html" [3] 1] = some (s, touch) ∧
      run (cache_create 2 0)
        [Op.put "/a" "text/html" [1] 1, Op.put "/b" "text/html" [2] 1,
          Op.get "/a", Op.put "/c" "text/html" [3] 1] = some s ∧
      (dllist_entries s).Pairwise (fun p q => touch q < touch p) ∧
      ∀ pre op, [Op.put "/a" "text/html" [1] 1, Op.put "/b" "text/html" [2] 1,
          Op.get "/a", Op.put "/c" "text/html" [3] 1] = pre ++ [op] →
        ∃ s0, run (cache_create 2 0) pre = some s0 ∧
          ∀ e ∈ dllist_entries s0, e ∉ dllist_entries s →
            ∀ q ∈ dllist_entries s, touch e < touch q :=
  ⟨⟨by decide, by decide⟩,
    recency_list_ordered_by_touch 2 0 (by decide) _ (by decide)⟩

/-- A `cache_put` followed by a `cache_get` of the same key returns the entry
just created, unless the put evicted a tail entry that has this very key. -/
theorem put_then_get {s : State} {L : List Ptr} (hi : CacheInv s L) (key ct : String)
    (content : List UInt8) (n : Nat)
    (hsafe : s.cache.max_size < s.cache.cur_size + 1 →
      ∀ t, s.cache.tail = some t → path_at s t ≠ some key) :
    ∃ s1 s2 e, cache_put s key ct content n = some s1 ∧
      cache_get s1 key = some (s2, some (alloc_entry s key ct content n).2) ∧
      s2.heap (alloc_entry s key ct content n).2 = some e ∧
      payload e = (key, ct, n, content.take n) := by
  by_cases hc : s.cache.cur_size + 1 ≤ s.cache.max_size
  · obtain ⟨s1, hs1, hi1, hx1, _, _, _, ⟨e, he, hpe⟩, _⟩ := cache_put_keep hi hc key ct content n
    have hg : hashtable_get s1.cache.index key = some s.brk := by
      rw [hx1, hashtable_get_put, if_pos rfl]
    obtain ⟨s2, hs2, _, _, _, _, _, hd2⟩ := cache_get_hit hi1 hg
    obtain ⟨e2, he2, hpe2⟩ := same_data_some hd2 he
    exact ⟨s1, s2, e2, hs1, hs2, he2, hpe2.trans hpe⟩
  · have hc1 : s.cache.max_size < s.cache.cur_size + 1 := by omega
    obtain ⟨A, t, hL⟩ := exists_snoc (put_nonempty hi hc1)
    subst hL
    obtain ⟨s1, et, hs1, het, hi1, hx1, _, _, _, ⟨e, he, hpe⟩, _, _⟩ :=
      cache_put_evict hi hc1 key ct content n
    have htail : s.cache.tail = some t := dseg_last hi.wf.seg
    have hne : et.path ≠ key := by
      intro h
      apply hsafe hc1 t htail
      show (s.heap t).map cache_entry.path = some key
      rw [het]; simp [h]
    have hg : hashtable_get s1.cache.index key = some s.brk := by
      rw [hx1, hashtable_get_delete, if_neg hne, hashtable_get_put, if_pos rfl]
    obtain ⟨s2, hs2, _, _, _, _, _, hd2⟩ := cache_get_hit hi1 hg
    obtain ⟨e2, he2, hpe2⟩ := same_data_some hd2 he
    exact ⟨s1, s2, e2, hs1, hs2, he2, hpe2.trans hpe⟩

/-- C4, as stated, fails: on a cache of capacity 1 that holds the key `/a`,
`cache_put` of `/a` again evicts the old entry and with it deletes the key
`/a` from the index, so the `cache_get` that follows returns `NULL`. -/
theorem put_get_round_trip_counterexample :
    ((run (cache_create 1 0) [Op.put "/a" "text/plain" [104, 105] 2]).bind fun s =>
      (cache_put s "/a" "text/plain" [104, 0, 105] 3).bind fun s1 =>
        (cache_get s1 "/a").map Prod.snd) = some none := by
  decide

/-- C4, amended. Round trip: for every reachable cache state and every key,
provided that the put does not evict an entry whose path is that key (that
is, `cur_size + 1 ≤ max_size`, or the tail entry has another path),
`cache_put key t bytes len` followed at once by `cache_get key` returns an
entry whose content type is `t`, whose content length is `len`, and whose
content is the first `len` bytes of `bytes`: all of `bytes`, byte for byte,
when `len` is their number. -/
theorem put_get_round_trip (s : State) (hr : Reachable s) (key t : String)
    (bytes : List UInt8) (len : Nat)
    (hsafe : s.cache.max_size < s.cache.cur_size + 1 →
      ∀ tl, s.cache.tail = some tl → path_at s tl ≠ some key) :
    ∃ s1 s2 p e, cache_put s key t bytes len = some s1 ∧
      cache_get s1 key = some (s2, some p) ∧ s2.heap p = some e ∧
      e.content_type = t ∧ e.content_length = len ∧ e.content = bytes.take len ∧
      (len = bytes.length → e.content = bytes) := by
  obtain ⟨L, hi⟩ := reachable_inv hr
  obtain ⟨s1, s2, e, hs1, hs2, he, hpe⟩ := put_then_get hi key t bytes len hsafe
  simp only [payload, Prod.mk.injEq] at hpe
  obtain ⟨_, h2, h3, h4⟩ := hpe
  refine ⟨s1, s2, _, e, hs1, hs2, he, h2, h3, h4, ?_⟩
  intro hlen
  rw [h4, hlen, List.take_length]

/-- C5. Byte-exact storage of a new key: for every reachable cache state and
every key that no entry of the list has, `cache_put key t content n` followed
by `cache_get key` returns the entry created by that put; its path is `key`,
its content type `t`, its content length `n`, and its content the first `n`
bytes of the argument, zero bytes included. -/
theorem put_get_new_key (s : State) (hr : Reachable s) (key t : String)
    (content : List UInt8) (n : Nat)
    (hnew : ∀ p ∈ dllist_entries s, path_at s p ≠ some key) :
    ∃ s1 s2 e, cache_put s key t content n = some s1 ∧
      cache_get s1 key = some (s2, some (alloc_entry s key t content n).2) ∧
      s2.heap (alloc_entry s key t content n).2 = some e ∧
      e.path = key ∧ e.content_type = t ∧ e.content_length = n ∧
      e.content = content.take n := by
  obtain ⟨L, hi⟩ := reachable_inv hr
  have hsafe : s.cache.max_size < s.cache.cur_size + 1 →
      ∀ tl, s.cache.tail = some tl → path_at s tl ≠ some key := by
    intro hc tl htl
    apply hnew
    rw [WF_entries hi.wf]
    obtain ⟨A, u, hL⟩ := exists_snoc (put_nonempty hi hc)
    subst hL
    have h := dseg_last hi.wf.seg
    rw [htl] at h
    cases h
    simp
  obtain ⟨s1, s2, e, hs1, hs2, he, hpe⟩ := put_then_get hi key t content n hsafe
  simp only [payload, Prod.mk.injEq] at hpe
  obtain ⟨h1, h2, h3, h4⟩ := hpe
  exact ⟨s1, s2, e, hs1, hs2, he, h1, h2, h3, h4⟩

theorem cache_after_reachable (max_size : Int) (ops : List Op) (hm : 1 ≤ max_size) :
    Reachable (cache_after max_size ops) := by
  obtain ⟨s1, L1, hs1, _, _⟩ := run_inv (cache_create_inv max_size 0 hm) ops
  exact ⟨max_size, 0, ops, hm, by simp [cache_after, hs1]⟩

theorem put_get_round_trip_witness :
    (Reachable (cache_after 1 [Op.put "/a" "text/plain" [104, 105] 2]) ∧
      ((cache_after 1 [Op.put "/a" "text/plain" [104, 105] 2]).cache.max_size <
          (cache_after 1 [Op.put "/a" "text/plain" [104, 105] 2]).cache.cur_size + 1 →
        ∀ tl, (cache_after 1 [Op.put "/a" "text/plain" [104, 105] 2]).cache.tail = some tl →
          path_at (cache_after 1 [Op.put "/a" "text/plain" [104, 105] 2]) tl ≠ some "/b")) ∧
    ∃ s1 s2 p e,
      cache_put (cache_after 1 [Op.put "/a" "text/plain" [104, 105] 2])
        "/b" "text/plain" [104, 0, 105] 3 = some s1 ∧
      cache_get s1 "/b" = some (s2, some p) ∧ s2.heap p = some e ∧
      e.content_type = "text/plain" ∧ e.content_length = 3 ∧
      e.content = List.take 3 [104, 0, 105] ∧
      (3 = [(104 : UInt8), 0, 105].length → e.content = [104, 0, 105]) :=
  have hsafe : (cache_after 1 [Op.put "/a" "text/plain" [104, 105] 2]).cache.max_size <
      (cache_after 1 [Op.put "/a" "text/plain" [104, 105] 2]).cache.cur_size + 1 →
      ∀ tl, (cache_after 1 [Op.put "/a" "text/plain" [104, 105] 2]).cache.tail = some tl →
        path_at (cache_after 1 [Op.put "/a" "text/plain" [104, 105] 2]) tl ≠ some "/b" := by
    intro _ tl htl
    have h0 : (cache_after 1 [Op.put "/a" "text/plain" [104, 105] 2]).cache.tail = some 0 := by
      decide
    rw [h0] at htl
    cases htl
    decide
  ⟨⟨cache_after_reachable 1 _ (by decide), hsafe⟩,
    put_get_round_trip _ (cache_after_reachable 1 _ (by decide)) "/b" "text/plain"
      [104, 0, 105] 3 hsafe⟩

theorem put_get_new_key_witness :
    (Reachable (cache_after 1 [Op.put "/a" "text/plain" [104, 105] 2]) ∧
      ∀ p ∈ dllist_entries (cache_after 1 [Op.put "/a" "text/plain" [104, 105] 2]),
        path_at (cache_after 1 [Op.put "/a" "text/plain" [104, 105] 2]) p ≠ some "/b") ∧
    ∃ s1 s2 e,
      cache_put (cache_after 1 [Op.put "/a" "text/plain" [104, 105] 2])
        "/b" "image/png" [137, 0, 80, 78] 3 = some s1 ∧
      cache_get s1 "/b" = some (s2, some (alloc_entry
        (cache_after 1 [Op.put "/a" "text/plain" [104, 105] 2])
        "/b" "image/png" [137, 0, 80, 78] 3).2) ∧
      s2.heap (alloc_entry (cache_after 1 [Op.put "/a" "text/plain" [104, 105] 2])
        "/b" "image/png" [137, 0, 80, 78] 3).2 = some e ∧
      e.path = "/b" ∧ e.content_type = "image/png" ∧ e.content_length = 3 ∧
      e.content = List.take 3 [137, 0, 80, 78] :=
  ⟨⟨cache_after_reachable 1 _ (by decide), by decide⟩,
    put_get_new_key _ (cache_after_reachable 1 _ (by decide)) "/b" "image/png"
      [137, 0, 80, 78] 3 (by decide)⟩

/-- C6 (code defect). On a cache of capacity 1 the puts of the distinct keys
`/a`, `/b`, `/c` leave two entries in the recency list: the evicting second
put decrements `cur_size` twice (in `dllist_remove_tail` and again in
`cache_put`), so the third put finds `cur_size = 1 ≤ max_size` and evicts
nothing. -/
theorem list_longer_than_max_size :
    (run (cache_create 1 0) [Op.put "/a" "text/html" [1] 1, Op.put "/b" "text/html" [2] 1,
        Op.put "/c" "text/html" [3] 1]).map
      (fun s => (dllist_entries s, s.cache.cur_size, s.cache.max_size)) =
      some ([2, 1], 1, 1) := by
  decide

/-- C7. Capacity invariant on the size counter: for every cache created with
`max_size ≥ 1` and every sequence of calls whose `cache_put` keys are
pairwise distinct, every call of the sequence succeeds and after it
`cur_size ≤ max_size` (with `max_size` the value given to `cache_create`).
The proof uses neither the distinctness of the keys nor the absence of
`cache_get` calls. -/
theorem cur_size_le_max_size (max_size hashsize : Int) (hm : 1 ≤ max_size) (ops : List Op)
    (_hk : (put_keys ops).Nodup) (n : Nat) :
    ∃ s, run (cache_create max_size hashsize) (ops.take n) = some s ∧
      s.cache.cur_size ≤ s.cache.max_size ∧ s.cache.max_size = max_size := by
  obtain ⟨s, L, hs, hi, hmx⟩ := run_inv (cache_create_inv max_size hashsize hm) (ops.take n)
  exact ⟨s, hs, hi.size.2.2.1, hmx⟩

theorem cur_size_le_max_size_witness :
    ((1 : Int) ≤ 1 ∧ (put_keys [Op.put "/a" "text/html" [1] 1, Op.put "/b" "text/html" [2] 1,
        Op.put "/c" "text/html" [3] 1]).Nodup) ∧
    ∃ s, run (cache_create 1 0) (List.take 2 [Op.put "/a" "text/html" [1] 1,
        Op.put "/b" "text/html" [2] 1, Op.put "/c" "text/html" [3] 1]) = some s ∧
      s.cache.cur_size ≤ s.cache.max_size ∧ s.cache.max_size = 1 :=
  ⟨⟨by decide, by decide⟩, cur_size_le_max_size 1 0 (by decide) _ (by decide) 2⟩

/-- C8 (code defect). On a cache of capacity 1, after the puts of the distinct
keys `/a` and `/b` the recency list has one entry and the index one key, but
`cur_size` is 0: the evicting put decrements the counter twice. -/
theorem size_counter_wrong_after_eviction :
    (run (cache_create 1 0) [Op.put "/a" "text/html" [1] 1, Op.put "/b" "text/html" [2] 1]).map
      (fun s => ((dllist_entries s).length, s.cache.cur_size, s.cache.index.length)) =
      some (1, 0, 1) := by
  decide

/-- C9 (code defect). On a cache of capacity 1, `cache_put /a` then
`cache_put /b` evicts `/a` (`cache_get /a` returns `NULL`, `cache_get /b`
the entry at address 1); but the further `cache_put /a` evicts nothing: the
list then holds both entries and `cache_get /b` still returns the entry at
address 1. -/
theorem single_entry_cycle_keeps_second_key :
    ((run (cache_create 1 0) [Op.put "/a" "text/html" [1] 1, Op.put "/b" "text/html" [2] 1]).bind
      fun s => (cache_get s "/a").bind fun r => (cache_get r.1 "/b").map
        fun r1 => (r.2, r1.2)) = some (none, some 1) ∧
    ((run (cache_create 1 0) [Op.put "/a" "text/html" [1] 1, Op.put "/b" "text/html" [2] 1,
        Op.put "/a" "text/html" [1] 1]).bind
      fun s => (cache_get s "/b").map fun r => (dllist_entries s, r.2)) =
      some ([2, 1], some 1) := by
  decide

/-- C10. `cache_put` always inserts and evicts at most the tail: in every
reachable state, for every key (present or not), `cache_put` succeeds; the
head of the list is then the newly created entry, which carries the given
key; the list is `new :: L` when `cur_size + 1 ≤ max_size` and
`new :: L.dropLast` otherwise, with `L` the list before.  In the second case
the one entry removed is the previous tail: its key is deleted from the index
and the entry is released. -/
theorem cache_put_inserts_head_evicts_tail (s : State) (hr : Reachable s) (key ct : String)
    (content : List UInt8) (n : Nat) :
    ∃ s1 e, cache_put s key ct content n = some s1 ∧
      s1.cache.head = some (alloc_entry s key ct content n).2 ∧
      s1.heap (alloc_entry s key ct content n).2 = some e ∧ e.path = key ∧
      (alloc_entry s key ct content n).2 ∉ dllist_entries s ∧
      (s.cache.cur_size + 1 ≤ s.cache.max_size →
        dllist_entries s1 = (alloc_entry s key ct content n).2 :: dllist_entries s ∧
        s1.cache.index =
          hashtable_put s.cache.index key (alloc_entry s key ct content n).2) ∧
      (¬ s.cache.cur_size + 1 ≤ s.cache.max_size →
        dllist_entries s1 =
          (alloc_entry s key ct content n).2 :: (dllist_entries s).dropLast ∧
        ∃ t et, (dllist_entries s).getLast? = some t ∧ s.cache.tail = some t ∧
          s.heap t = some et ∧
          s1.cache.index = hashtable_delete
            (hashtable_put s.cache.index key (alloc_entry s key ct content n).2) et.path ∧
          hashtable_get s1.cache.index et.path = none ∧ s1.heap t = none) := by
  obtain ⟨L, hi⟩ := reachable_inv hr
  have hbL : s.brk ∉ L := by
    intro h
    obtain ⟨e0, he0⟩ := dseg_alloc hi.wf.seg _ h
    rw [hi.wf.fresh _ (le_refl _)] at he0; cases he0
  have hnew : (alloc_entry s key ct content n).2 = s.brk := rfl
  rw [hnew, WF_entries hi.wf]
  by_cases hc : s.cache.cur_size + 1 ≤ s.cache.max_size
  · obtain ⟨s1, hs1, hi1, hx1, _, _, _, ⟨e, he, hpe⟩, _⟩ := cache_put_keep hi hc key ct content n
    refine ⟨s1, e, hs1, hi1.wf.seg.1, he, congrArg Prod.fst hpe, hbL, ?_, ?_⟩
    · intro _
      exact ⟨WF_entries hi1.wf, hx1⟩
    · intro h; exact absurd hc h
  · have hc1 : s.cache.max_size < s.cache.cur_size + 1 := by omega
    obtain ⟨A, t, hL⟩ := exists_snoc (put_nonempty hi hc1)
    subst hL
    obtain ⟨s1, et, hs1, het, hi1, hx1, _, _, _, ⟨e, he, hpe⟩, hfree, _⟩ :=
      cache_put_evict hi hc1 key ct content n
    refine ⟨s1, e, hs1, hi1.wf.seg.1, he, congrArg Prod.fst hpe, hbL, ?_, ?_⟩
    · intro h; exact absurd h hc
    · intro _
      refine ⟨?_, t, et, ?_, dseg_last hi.wf.seg, het, hx1, ?_, hfree⟩
      · rw [WF_entries hi1.wf]; simp
      · simp
      · rw [hx1, hashtable_get_delete, if_pos rfl]

theorem cache_put_inserts_head_evicts_tail_witness :
    Reachable (cache_after 1 [Op.put "/a" "text/plain" [104, 105] 2]) ∧
    ∃ s1 e,
      cache_put (cache_after 1 [Op.put "/a" "text/plain" [104, 105] 2])
        "/b" "text/plain" [1] 1 = some s1 ∧
      s1.cache.head = some (alloc_entry (cache_after 1 [Op.put "/a" "text/plain" [104, 105] 2])
        "/b" "text/plain" [1] 1).2 ∧
      s1.heap (alloc_entry (cache_after 1 [Op.put "/a" "text/plain" [104, 105] 2])
        "/b" "text/plain" [1] 1).2 = some e ∧ e.path = "/b" ∧
      (alloc_entry (cache_after 1 [Op.put "/a" "text/plain" [104, 105] 2])
        "/b" "text/plain" [1] 1).2 ∉
          dllist_entries (cache_after 1 [Op.put "/a" "text/plain" [104, 105] 2]) ∧
      ((cache_after 1 [Op.put "/a" "text/plain" [104, 105] 2]).cache.cur_size + 1 ≤
          (cache_after 1 [Op.put "/a" "text/plain" [104, 105] 2]).cache.max_size →
        dllist_entries s1 =
          (alloc_entry (cache_after 1 [Op.put "/a" "text/plain" [104, 105] 2])
            "/b" "text/plain" [1] 1).2 ::
            dllist_entries (cache_after 1 [Op.put "/a" "text/plain" [104, 105] 2]) ∧
        s1.cache.index =
          hashtable_put (cache_after 1 [Op.put "/a" "text/plain" [104, 105] 2]).cache.index
            "/b" (alloc_entry (cache_after 1 [Op.put "/a" "text/plain" [104, 105] 2])
              "/b" "text/plain" [1] 1).2) ∧
      (¬ (cache_after 1 [Op.put "/a" "text/plain" [104, 105] 2]).cache.cur_size + 1 ≤
          (cache_after 1 [Op.put "/a" "text/plain" [104, 105] 2]).cache.max_size →
        dllist_entries s1 =
          (alloc_entry (cache_after 1 [Op.put "/a" "text/plain" [104, 105] 2])
            "/b" "text/plain" [1] 1).2 ::
            (dllist_entries (cache_after 1 [Op.put "/a" "text/plain" [104, 105] 2])).dropLast ∧
        ∃ t et,
          (dllist_entries (cache_after 1 [Op.put "/a" "text/plain" [104, 105] 2])).getLast? =
            some t ∧
          (cache_after 1 [Op.put "/a" "text/plain" [104, 105] 2]).cache.tail = some t ∧
          (cache_after 1 [Op.put "/a" "text/plain" [104, 105] 2]).heap t = some et ∧
          s1.cache.index = hashtable_delete
            (hashtable_put (cache_after 1 [Op.put "/a" "text/plain" [104, 105] 2]).cache.index
              "/b" (alloc_entry (cache_after 1 [Op.put "/a" "text/plain" [104, 105] 2])
                "/b" "text/plain" [1] 1).2) et.path ∧
          hashtable_get s1.cache.index et.path = none ∧ s1.heap t = none) :=
  ⟨cache_after_reachable 1 _ (by decide),
    cache_put_inserts_head_evicts_tail _ (cache_after_reachable 1 _ (by decide))
      "/b" "text/plain" [1] 1⟩

theorem WF_head {s : State} {L : List Ptr} (hw : WF s L) : s.cache.head = L.head? := by
  cases L with
  | nil => exact hw.seg.1
  | cons a rest => exact hw.seg.1

theorem WF_tail {s : State} {L : List Ptr} (hw : WF s L) : s.cache.tail = L.getLast? := by
  by_cases hL : L = []
  · subst hL; exact hw.seg.2.symm
  · obtain ⟨A, u, rfl⟩ := exists_snoc hL
    rw [dseg_last hw.seg]; simp

/-- The links of an entry inside a segment: its `prev` is the entry before it
and that entry's `next` points back; its `next` is the entry after it and
that entry's `prev` points back. -/
theorem dseg_links {h : Heap} {A B : List Ptr} {a : Ptr} {x pv last nx}
    (hd : dseg h x pv (A ++ a :: B) last nx) :
    ∃ ea, h a = some ea ∧
      (A = [] → ea.prev = pv ∧ x = some a) ∧
      (∀ A1 u, A = A1 ++ [u] → ea.prev = some u ∧ ∃ eu, h u = some eu ∧ eu.next = some a) ∧
      (B = [] → ea.next = nx ∧ last = some a) ∧
      (∀ b B1, B = b :: B1 → ea.next = some b ∧ ∃ eb, h b = some eb ∧ eb.prev = some a) := by
  obtain ⟨mid, ml, hA, hB⟩ := dseg_append.1 hd
  obtain ⟨hmid, ea, hea, hpv, hrest⟩ := hB
  refine ⟨ea, hea, ?_, ?_, ?_, ?_⟩
  · intro hA0
    subst hA0
    obtain ⟨h1, h2⟩ := hA
    exact ⟨hpv.trans h2.symm, h1.trans hmid⟩
  · intro A1 u hA1
    subst hA1
    have hml : ml = some u := dseg_last hA
    obtain ⟨m2, ml2, _, hu⟩ := dseg_append.1 hA
    obtain ⟨_, eu, heu, _, hu2⟩ := hu
    exact ⟨hpv.trans hml, eu, heu, hu2.1.trans hmid⟩
  · intro hB0
    subst hB0
    exact ⟨hrest.1, hrest.2.symm⟩
  · intro b B1 hB1
    subst hB1
    obtain ⟨hb, eb, heb, hbp, _⟩ := hrest
    exact ⟨hb, eb, heb, hbp⟩

theorem list_cases_snoc (L : List Ptr) : L = [] ∨ ∃ A u, L = A ++ [u] := by
  by_cases h : L = []
  · exact Or.inl h
  · exact Or.inr (exists_snoc h)

/-- The pointer-level reading of a well-formed list. -/
theorem WF_links {s : State} {L : List Ptr} (hw : WF s L) :
    ∀ a ∈ L, ∃ ea, s.heap a = some ea ∧
      (s.cache.head = some a → ea.prev = none) ∧
      (s.cache.tail = some a → ea.next = none) ∧
      (s.cache.tail ≠ some a →
        ∃ b eb, ea.next = some b ∧ b ∈ L ∧ s.heap b = some eb ∧ eb.prev = some a) ∧
      (s.cache.head ≠ some a →
        ∃ b eb, ea.prev = some b ∧ b ∈ L ∧ s.heap b = some eb ∧ eb.next = some a) := by
  intro a ha
  obtain ⟨A, B, rfl⟩ := List.append_of_mem ha
  obtain ⟨ea, hea, hA0, hA1, hB0, hB1⟩ := dseg_links hw.seg
  have hnd := hw.nodup
  obtain ⟨hndA, hndB, hdis⟩ := List.nodup_append.1 hnd
  have haA : a ∉ A := fun h => hdis h (List.mem_cons_self _ _)
  have haB : a ∉ B := (List.nodup_cons.1 hndB).1
  have hhead : s.cache.head = some a → A = [] := by
    intro hh
    rcases list_cases_snoc A with h | ⟨A1, u, h⟩
    · exact h
    · exfalso
      cases A with
      | nil => simp at h
      | cons a0 A2 =>
        have := hw.seg.1
        rw [hh] at this
        cases this
        exact haA (List.mem_cons_self _ _)
  have htail : s.cache.tail = some a → B = [] := by
    intro ht
    cases B with
    | nil => rfl
    | cons b B1 =>
      exfalso
      obtain ⟨C, u, hC⟩ := exists_snoc (List.cons_ne_nil b B1)
      have hseg := hw.seg
      rw [hC, ← List.cons_append, ← List.append_assoc] at hseg
      have := dseg_last hseg
      rw [ht] at this
      cases this
      exact haB (by rw [hC]; simp)
  refine ⟨ea, hea, ?_, ?_, ?_, ?_⟩
  · intro hh
    exact (hA0 (hhead hh)).1
  · intro ht
    exact (hB0 (htail ht)).1
  · intro ht
    cases B with
    | nil => exact absurd (hB0 rfl).2 ht
    | cons b B1 =>
      obtain ⟨h1, eb, heb, h2⟩ := hB1 b B1 rfl
      exact ⟨b, eb, h1, by simp, heb, h2⟩
  · intro hh
    rcases list_cases_snoc A with h | ⟨A1, u, h⟩
    · exact absurd (hA0 h).2 hh
    · obtain ⟨h1, eu, heu, h2⟩ := hA1 A1 u h
      exact ⟨u, eu, h1, by rw [h]; simp, heu, h2⟩

/-- C11. `cache_get` promotes on a hit: in every reachable state with recency
list `L`, for every key `k` that the index maps to an entry `e`, `cache_get k`
returns `e`; afterwards the list is `e` followed by `L` with `e` removed, `e`
is the head, and the tail is the last entry of that list; if `e` was the tail
(and not the head) the new tail is `e`'s former predecessor `e->prev`; if `e`
was already the head the list is unchanged.  The size counter is not changed. -/
theorem cache_get_promotes (s : State) (hr : Reachable s) (k : String) (e : Ptr)
    (hk : hashtable_get s.cache.index k = some e) :
    ∃ s1, cache_get s k = some (s1, some e) ∧ e ∈ dllist_entries s ∧
      dllist_entries s1 = e :: (dllist_entries s).erase e ∧
      s1.cache.head = some e ∧
      s1.cache.tail = (e :: (dllist_entries s).erase e).getLast? ∧
      (s.cache.tail = some e → s.cache.head ≠ some e →
        ∃ ee, s.heap e = some ee ∧ s1.cache.tail = ee.prev) ∧
      (s.cache.head = some e → dllist_entries s1 = dllist_entries s) ∧
      s1.cache.cur_size = s.cache.cur_size := by
  obtain ⟨L, hi⟩ := reachable_inv hr
  obtain ⟨s1, hs1, hi1, _, hc1, _, _, _⟩ := cache_get_hit hi hk
  have hm : e ∈ L := (hi.idx k e hk).1
  have ht1 := WF_tail hi1.wf
  have he1 := WF_entries hi1.wf
  rw [WF_entries hi.wf]
  refine ⟨s1, hs1, hm, he1, hi1.wf.seg.1, ht1, ?_, ?_, hc1⟩
  · intro htl hhd
    rcases list_cases_snoc L with hL | ⟨A, u, hL⟩
    · subst hL; cases hm
    · subst hL
      have hu := dseg_last hi.wf.seg
      rw [htl] at hu
      cases hu
      have heA : e ∉ A := by
        intro h
        exact (List.nodup_append.1 hi.wf.nodup).2.2 h (List.mem_singleton_self e)
      have her : (A ++ [e]).erase e = A := by
        rw [List.erase_append_right _ heA]; simp
      rcases list_cases_snoc A with hA | ⟨A1, v, hA⟩
      · subst hA
        exact absurd hi.wf.seg.1 hhd
      · subst hA
        obtain ⟨ee, hee, _, hA1, _, _⟩ := dseg_links (B := []) hi.wf.seg
        refine ⟨ee, hee, ?_⟩
        rw [ht1, her, (hA1 A1 v rfl).1, ← List.cons_append, List.getLast?_concat]
  · intro hhd
    cases L with
    | nil => cases hm
    | cons a rest =>
      have := hi.wf.seg.1
      rw [hhd] at this
      cases this
      rw [he1]
      simp

theorem cache_get_promotes_witness :
    (Reachable (cache_after 2 [Op.put "/a" "text/plain" [104, 105] 2,
        Op.put "/b" "text/plain" [1] 1]) ∧
      hashtable_get (cache_after 2 [Op.put "/a" "text/plain" [104, 105] 2,
        Op.put "/b" "text/plain" [1] 1]).cache.index "/a" = some 0) ∧
    ∃ s1, cache_get (cache_after 2 [Op.put "/a" "text/plain" [104, 105] 2,
        Op.put "/b" "text/plain" [1] 1]) "/a" = some (s1, some 0) ∧
      0 ∈ dllist_entries (cache_after 2 [Op.put "/a" "text/plain" [104, 105] 2,
        Op.put "/b" "text/plain" [1] 1]) ∧
      dllist_entries s1 = 0 :: (dllist_entries (cache_after 2
        [Op.put "/a" "text/plain" [104, 105] 2, Op.put "/b" "text/plain" [1] 1])).erase 0 ∧
      s1.cache.head = some 0 ∧
      s1.cache.tail = (0 :: (dllist_entries (cache_after 2
        [Op.put "/a" "text/plain" [104, 105] 2,
          Op.put "/b" "text/plain" [1] 1])).erase 0).getLast? ∧
      ((cache_after 2 [Op.put "/a" "text/plain" [104, 105] 2,
          Op.put "/b" "text/plain" [1] 1]).cache.tail = some 0 →
        (cache_after 2 [Op.put "/a" "text/plain" [104, 105] 2,
          Op.put "/b" "text/plain" [1] 1]).cache.head ≠ some 0 →
        ∃ ee, (cache_after 2 [Op.put "/a" "text/plain" [104, 105] 2,
          Op.put "/b" "text/plain" [1] 1]).heap 0 = some ee ∧ s1.cache.tail = ee.prev) ∧
      ((cache_after 2 [Op.put "/a" "text/plain" [104, 105] 2,
          Op.put "/b" "text/plain" [1] 1]).cache.head = some 0 →
        dllist_entries s1 = dllist_entries (cache_after 2
          [Op.put "/a" "text/plain" [104, 105] 2, Op.put "/b" "text/plain" [1] 1])) ∧
      s1.cache.cur_size = (cache_after 2 [Op.put "/a" "text/plain" [104, 105] 2,
        Op.put "/b" "text/plain" [1] 1]).cache.cur_size :=
  ⟨⟨cache_after_reachable 2 _ (by decide), by decide⟩,
    cache_get_promotes _ (cache_after_reachable 2 _ (by decide)) "/a" 0 (by decide)⟩

/-- C12, as stated, fails: `cache_create` makes a cache also for the
capacities `0` and `-1`; it has no failure result. -/
theorem cache_create_accepts_nonpositive :
    (cache_create 0 0).cache =
      { index := [], head := none, tail := none, max_size := 0, cur_size := 0 } ∧
    (cache_create (-1) 0).cache =
      { index := [], head := none, tail := none, max_size := -1, cur_size := 0 } := by
  decide

/-- C12, amended. `cache_create` does not validate its capacity: for every
`max_size`, positive or not, it returns an empty cache with an empty index,
`cur_size = 0`, no head, no tail, no entry and the given `max_size`. -/
theorem cache_create_unchecked (max_size hashsize : Int) :
    (cache_create max_size hashsize).cache =
      { index := [], head := none, tail := none, max_size := max_size, cur_size := 0 } ∧
    dllist_entries (cache_create max_size hashsize) = [] ∧
    ∀ p, (cache_create max_size hashsize).heap p = none :=
  ⟨rfl, rfl, fun _ => rfl⟩

/-- C13. Empty-cache miss: for every capacity at least one and every key,
`cache_get` on the cache just made by `cache_create` returns `NULL` and
leaves the cache as it is. -/
theorem empty_cache_miss (max_size hashsize : Int) (_h : 1 ≤ max_size) (key : String) :
    cache_get (cache_create max_size hashsize) key =
      some (cache_create max_size hashsize, none) :=
  cache_get_miss rfl

theorem empty_cache_miss_witness :
    (1 : Int) ≤ 3 ∧ cache_get (cache_create 3 0) "/index.html" = some (cache_create 3 0, none) :=
  ⟨by decide, empty_cache_miss 3 0 (by decide) "/index.html"⟩

/-- C14 (code defect). On the one-entry list left by a single `cache_put`
(head and tail are the entry at address 0, whose links are both `NULL`)
`dllist_remove_tail` sets `cache->tail` to the entry's `prev`, which is
`NULL`, and then assigns `cache->tail->next`: the call fails.  `cache_put`
reaches this on a cache of capacity 0. -/
theorem remove_tail_fails_on_single_entry :
    (cache_after 1 [Op.put "/a" "text/plain" [104, 105] 2]).cache.head = some 0 ∧
    (cache_after 1 [Op.put "/a" "text/plain" [104, 105] 2]).cache.tail = some 0 ∧
    ((cache_after 1 [Op.put "/a" "text/plain" [104, 105] 2]).heap 0).map
      (fun e => (e.prev, e.next)) = some (none, none) ∧
    (dllist_remove_tail (cache_after 1 [Op.put "/a" "text/plain" [104, 105] 2])).isSome =
      false ∧
    (cache_put (cache_create 0 0) "/a" "text/plain" [104, 105] 2).isSome = false := by
  decide

/-- C15. No absent link is ever dereferenced: for every cache created with
`max_size ≥ 1` and every sequence of `cache_put` and `cache_get` calls, every
call succeeds (the failure branch of the embedding is not reached).  In the
state reached, a further `cache_put` calls `dllist_remove_tail` (when
`cur_size > max_size` after the insertion) only on a list of at least two
entries, so that `oldtail->prev` is an allocated entry; and an entry that
`cache_get` finds in the index and hands to `dllist_move_to_head` is in the
list, with `ce->prev` allocated when `ce` is not the head and `ce->next`
allocated when it is neither head nor tail. -/
theorem no_null_dereference (max_size hashsize : Int) (hm : 1 ≤ max_size) (ops : List Op) :
    ∃ s, run (cache_create max_size hashsize) ops = some s ∧
      (∀ key ct content n,
        ∃ s2 s1, dllist_insert_head (alloc_entry s key ct content n).1
            (alloc_entry s key ct content n).2 = some s2 ∧
          cache_put s key ct content n = some s1 ∧
          (s2.cache.cur_size > s2.cache.max_size →
            2 ≤ (dllist_entries s2).length ∧
            ∃ oldtail e t et, s2.cache.tail = some oldtail ∧ s2.heap oldtail = some e ∧
              e.prev = some t ∧ s2.heap t = some et)) ∧
      (∀ key ce, hashtable_get s.cache.index key = some ce →
        ce ∈ dllist_entries s ∧
        (∃ s1, dllist_move_to_head s ce = some s1) ∧
        ∃ e, s.heap ce = some e ∧
          (s.cache.head ≠ some ce → ∃ pv epv, e.prev = some pv ∧ s.heap pv = some epv) ∧
          (s.cache.head ≠ some ce → s.cache.tail ≠ some ce →
            ∃ nx enx, e.next = some nx ∧ s.heap nx = some enx)) := by
  obtain ⟨s, L, hs, hi, _⟩ := run_inv (cache_create_inv max_size hashsize hm) ops
  refine ⟨s, hs, ?_, ?_⟩
  · intro key ct content n
    obtain ⟨s1, _, hs1, _, _⟩ := step_inv hi (Op.put key ct content n)
    obtain ⟨s2, e2, hs2, _, _, hw2, _, _, hm2, hc2, _, _⟩ := put_front hi.wf key ct content n
    refine ⟨s2, s1, hs2, hs1, ?_⟩
    intro hgt
    have hfull : s.cache.max_size < s.cache.cur_size + 1 := by
      rw [hc2, hm2] at hgt; exact hgt
    obtain ⟨A, t, hL⟩ := exists_snoc (put_nonempty hi hfull)
    subst hL
    rw [WF_entries hw2]
    refine ⟨by simp, ?_⟩
    obtain ⟨A0, u, hA0⟩ := exists_snoc (List.cons_ne_nil s.brk A)
    have hL2 : s.brk :: (A ++ [t]) = (A0 ++ [u]) ++ t :: [] := by
      rw [← List.cons_append, hA0]
    have hseg := hw2.seg
    rw [hL2] at hseg
    obtain ⟨et, het, _, hA1, hB0, _⟩ := dseg_links hseg
    obtain ⟨hp, eu, heu, _⟩ := hA1 A0 u rfl
    exact ⟨t, et, u, eu, (hB0 rfl).2, het, hp, heu⟩
  · intro key ce hk
    have hm1 : ce ∈ L := (hi.idx key ce hk).1
    obtain ⟨s1, hs1, _⟩ := dllist_move_to_head_spec hi.wf hm1
    obtain ⟨e, he, _, _, hnx, hpv⟩ := WF_links hi.wf ce hm1
    rw [WF_entries hi.wf]
    refine ⟨hm1, ⟨s1, hs1⟩, e, he, ?_, ?_⟩
    · intro hh
      obtain ⟨b, eb, h1, _, h2, _⟩ := hpv hh
      exact ⟨b, eb, h1, h2⟩
    · intro _ ht
      obtain ⟨b, eb, h1, _, h2, _⟩ := hnx ht
      exact ⟨b, eb, h1, h2⟩

theorem no_null_dereference_witness :
    (1 : Int) ≤ 1 ∧
    ∃ s, run (cache_create 1 0) [Op.put "/a" "text/plain" [104, 105] 2, Op.get "/a",
        Op.put "/b" "text/plain" [1] 1] = some s ∧
      (∀ key ct content n,
        ∃ s2 s1, dllist_insert_head (alloc_entry s key ct content n).1
            (alloc_entry s key ct content n).2 = some s2 ∧
          cache_put s key ct content n = some s1 ∧
          (s2.cache.cur_size > s2.cache.max_size →
            2 ≤ (dllist_entries s2).length ∧
            ∃ oldtail e t et, s2.cache.tail = some oldtail ∧ s2.heap oldtail = some e ∧
              e.prev = some t ∧ s2.heap t = some et)) ∧
      (∀ key ce, hashtable_get s.cache.index key = some ce →
        ce ∈ dllist_entries s ∧
        (∃ s1, dllist_move_to_head s ce = some s1) ∧
        ∃ e, s.heap ce = some e ∧
          (s.cache.head ≠ some ce → ∃ pv epv, e.prev = some pv ∧ s.heap pv = some epv) ∧
          (s.cache.head ≠ some ce → s.cache.tail ≠ some ce →
            ∃ nx enx, e.next = some nx ∧ s.heap nx = some enx)) :=
  ⟨by decide, no_null_dereference 1 0 (by decide) _⟩

/-- C16. The recency list stays well formed: for every cache created with
`max_size ≥ 1`, after every sequence of `cache_put` and `cache_get` calls the
traversal from `head` by `next` links ends (more fuel gives the same list),
no entry occurs twice in it (the list is acyclic), `head` is its first and
`tail` its last entry, `head->prev` and `tail->next` are `NULL`,
`a->next->prev == a` for every entry `a` other than the tail,
`a->prev->next == a` for every entry `a` other than the head, and `head` and
`tail` are `NULL` exactly when the list is empty. -/
theorem recency_list_well_formed (max_size hashsize : Int) (hm : 1 ≤ max_size)
    (ops : List Op) :
    ∃ s, run (cache_create max_size hashsize) ops = some s ∧
      (∀ fuel, s.brk ≤ fuel → dllist_walk s.heap fuel s.cache.head = dllist_entries s) ∧
      (dllist_entries s).Nodup ∧
      s.cache.head = (dllist_entries s).head? ∧
      s.cache.tail = (dllist_entries s).getLast? ∧
      (∀ a ∈ dllist_entries s, ∃ ea, s.heap a = some ea ∧
        (s.cache.head = some a → ea.prev = none) ∧
        (s.cache.tail = some a → ea.next = none) ∧
        (s.cache.tail ≠ some a →
          ∃ b eb, ea.next = some b ∧ b ∈ dllist_entries s ∧ s.heap b = some eb ∧
            eb.prev = some a) ∧
        (s.cache.head ≠ some a →
          ∃ b eb, ea.prev = some b ∧ b ∈ dllist_entries s ∧ s.heap b = some eb ∧
            eb.next = some a)) ∧
      (s.cache.head = none ↔ dllist_entries s = []) ∧
      (s.cache.tail = none ↔ dllist_entries s = []) := by
  obtain ⟨s, L, hs, hi, _⟩ := run_inv (cache_create_inv max_size hashsize hm) ops
  have hh := WF_head hi.wf
  have ht := WF_tail hi.wf
  refine ⟨s, hs, ?_⟩
  rw [WF_entries hi.wf]
  refine ⟨?_, hi.wf.nodup, hh, ht, WF_links hi.wf, ?_, ?_⟩
  · intro fuel hf
    exact dseg_walk hi.wf.seg (le_trans (WF_length_le hi.wf) hf)
  · rw [hh]; exact List.head?_eq_none_iff
  · rw [ht]; exact List.getLast?_eq_none_iff

theorem recency_list_well_formed_witness :
    (1 : Int) ≤ 2 ∧
    ∃ s, run (cache_create 2 0) [Op.put "/a" "text/plain" [104, 105] 2,
        Op.put "/b" "text/plain" [1] 1, Op.get "/a", Op.put "/c" "text/plain" [] 0] = some s ∧
      (∀ fuel, s.brk ≤ fuel → dllist_walk s.heap fuel s.cache.head = dllist_entries s) ∧
      (dllist_entries s).Nodup ∧
      s.cache.head = (dllist_entries s).head? ∧
      s.cache.tail = (dllist_entries s).getLast? ∧
      (∀ a ∈ dllist_entries s, ∃ ea, s.heap a = some ea ∧
        (s.cache.head = some a → ea.prev = none) ∧
        (s.cache.tail = some a → ea.next = none) ∧
        (s.cache.tail ≠ some a →
          ∃ b eb, ea.next = some b ∧ b ∈ dllist_entries s ∧ s.heap b = some eb ∧
            eb.prev = some a) ∧
        (s.cache.head ≠ some a →
          ∃ b eb, ea.prev = some b ∧ b ∈ dllist_entries s ∧ s.heap b = some eb ∧
            eb.next = some a)) ∧
      (s.cache.head = none ↔ dllist_entries s = []) ∧
      (s.cache.tail = none ↔ dllist_entries s = []) :=
  ⟨by decide, recency_list_well_formed 2 0 (by decide) _⟩

/-- C18. `cache_get` never returns an evicted entry, even with duplicate
keys: for every cache created with `max_size ≥ 1` and every sequence of
`cache_put` calls (keys may repeat) and `cache_get` calls, in the state
reached every key of the index maps to an entry that is in the recency list,
is allocated (not released) and has that key as its path. -/
theorem index_entries_are_live (max_size hashsize : Int) (hm : 1 ≤ max_size)
    (ops : List Op) :
    ∃ s, run (cache_create max_size hashsize) ops = some s ∧
      ∀ k p, hashtable_get s.cache.index k = some p →
        p ∈ dllist_entries s ∧ ∃ e, s.heap p = some e ∧ e.path = k := by
  obtain ⟨s, L, hs, hi, _⟩ := run_inv (cache_create_inv max_size hashsize hm) ops
  refine ⟨s, hs, ?_⟩
  intro k p hk
  obtain ⟨hm1, hp⟩ := hi.idx k p hk
  rw [WF_entries hi.wf]
  refine ⟨hm1, ?_⟩
  obtain ⟨e, he⟩ := dseg_alloc hi.wf.seg p hm1
  refine ⟨e, he, ?_⟩
  have : (s.heap p).map cache_entry.path = some k := hp
  rw [he] at this
  simpa using this

theorem index_entries_are_live_witness :
    (1 : Int) ≤ 1 ∧
    ∃ s, run (cache_create 1 0) [Op.put "/a" "text/plain" [104, 105] 2,
        Op.put "/a" "text/plain" [1] 1, Op.get "/a", Op.put "/b" "text/plain" [] 0,
        Op.put "/a" "text/plain" [2] 1] = some s ∧
      ∀ k p, hashtable_get s.cache.index k = some p →
        p ∈ dllist_entries s ∧ ∃ e, s.heap p = some e ∧ e.path = k :=
  ⟨by decide, index_entries_are_live 1 0 (by decide) _⟩

/-- C19. `cache_get` only reorders: in every reachable state and for every
key, `cache_get` succeeds and leaves `cur_size`, `max_size`, the index, the
set of entries of the recency list and every entry's path, content type,
content and content length unchanged; when the key is not in the index it
returns `NULL` and leaves the whole state, list order included, unchanged. -/
theorem cache_get_only_reorders (s : State) (hr : Reachable s) (key : String) :
    ∃ s1 r, cache_get s key = some (s1, r) ∧
      s1.cache.cur_size = s.cache.cur_size ∧ s1.cache.max_size = s.cache.max_size ∧
      s1.cache.index = s.cache.index ∧
      (∀ p, p ∈ dllist_entries s1 ↔ p ∈ dllist_entries s) ∧
      (∀ p, s.heap p = none → s1.heap p = none) ∧
      (∀ p e, s.heap p = some e → ∃ e1, s1.heap p = some e1 ∧ e1.path = e.path ∧
        e1.content_type = e.content_type ∧ e1.content = e.content ∧
        e1.content_length = e.content_length) ∧
      (hashtable_get s.cache.index key = none → r = none ∧ s1 = s) := by
  obtain ⟨L, hi⟩ := reachable_inv hr
  cases hg : hashtable_get s.cache.index key with
  | none =>
    refine ⟨s, none, cache_get_miss hg, rfl, rfl, rfl, fun _ => Iff.rfl, fun _ h => h, ?_,
      fun _ => ⟨rfl, rfl⟩⟩
    intro p e he
    exact ⟨e, he, rfl, rfl, rfl, rfl⟩
  | some p =>
    obtain ⟨s1, hs1, hi1, hx1, hc1, hm1, _, hd1⟩ := cache_get_hit hi hg
    have hm : p ∈ L := (hi.idx key p hg).1
    refine ⟨s1, some p, hs1, hc1, hm1, hx1, ?_, ?_, ?_, ?_⟩
    · intro q
      rw [WF_entries hi.wf, WF_entries hi1.wf]
      constructor
      · intro hq
        rcases List.mem_cons.1 hq with rfl | hq
        · exact hm
        · exact List.mem_of_mem_erase hq
      · intro hq
        by_cases hqp : q = p
        · rw [hqp]; exact List.mem_cons_self _ _
        · exact List.mem_cons_of_mem _ ((List.mem_erase_of_ne hqp).2 hq)
    · intro q hq
      exact same_data_none hd1 hq
    · intro q e he
      obtain ⟨e1, he1, hp1⟩ := same_data_some hd1 he
      simp only [payload, Prod.mk.injEq] at hp1
      exact ⟨e1, he1, hp1.1, hp1.2.1, hp1.2.2.2, hp1.2.2.1⟩
    · intro h; cases h

theorem cache_get_only_reorders_witness :
    Reachable (cache_after 2 [Op.put "/a" "text/plain" [104, 105] 2,
      Op.put "/b" "text/plain" [1] 1]) ∧
    ∃ s1 r, cache_get (cache_after 2 [Op.put "/a" "text/plain" [104, 105] 2,
        Op.put "/b" "text/plain" [1] 1]) "/a" = some (s1, r) ∧
      s1.cache.cur_size = (cache_after 2 [Op.put "/a" "text/plain" [104, 105] 2,
        Op.put "/b" "text/plain" [1] 1]).cache.cur_size ∧
      s1.cache.max_size = (cache_after 2 [Op.put "/a" "text/plain" [104, 105] 2,
        Op.put "/b" "text/plain" [1] 1]).cache.max_size ∧
      s1.cache.index = (cache_after 2 [Op.put "/a" "text/plain" [104, 105] 2,
        Op.put "/b" "text/plain" [1] 1]).cache.index ∧
      (∀ p, p ∈ dllist_entries s1 ↔ p ∈ dllist_entries (cache_after 2
        [Op.put "/a" "text/plain" [104, 105] 2, Op.put "/b" "text/plain" [1] 1])) ∧
      (∀ p, (cache_after 2 [Op.put "/a" "text/plain" [104, 105] 2,
        Op.put "/b" "text/plain" [1] 1]).heap p = none → s1.heap p = none) ∧
      (∀ p e, (cache_after 2 [Op.put "/a" "text/plain" [104, 105] 2,
          Op.put "/b" "text/plain" [1] 1]).heap p = some e →
        ∃ e1, s1.heap p = some e1 ∧ e1.path = e.path ∧
          e1.content_type = e.content_type ∧ e1.content = e.content ∧
          e1.content_length = e.content_length) ∧
      (hashtable_get (cache_after 2 [Op.put "/a" "text/plain" [104, 105] 2,
          Op.put "/b" "text/plain" [1] 1]).cache.index "/a" = none →
        r = none ∧ s1 = cache_after 2 [Op.put "/a" "text/plain" [104, 105] 2,
          Op.put "/b" "text/plain" [1] 1]) :=
  ⟨cache_after_reachable 2 _ (by decide),
    cache_get_only_reorders _ (cache_after_reachable 2 _ (by decide)) "/a"⟩

/-- A `cache_put` of a key that no list entry has keeps every list entry
indexed under its path. -/
theorem put_complete {s : State} {L : List Ptr} (hi : CacheInv s L)
    (hic : index_complete s L) (k ct : String) (content : List UInt8) (n : Nat)
    (hnew : ∀ p ∈ L, path_at s p ≠ some k) :
    ∃ s1 L1, cache_put s k ct content n = some s1 ∧ CacheInv s1 L1 ∧
      index_complete s1 L1 ∧
      ∀ p ∈ L1, path_at s1 p = some k ∨ (p ∈ L ∧ path_at s1 p = path_at s p) := by
  have hbL : s.brk ∉ L := by
    intro h
    obtain ⟨e0, he0⟩ := dseg_alloc hi.wf.seg _ h
    rw [hi.wf.fresh _ (le_refl _)] at he0; cases he0
  by_cases hc : s.cache.cur_size + 1 ≤ s.cache.max_size
  · obtain ⟨s1, hs1, hi1, hx1, _, _, _, ⟨e, he, hpe⟩, hd1⟩ := cache_put_keep hi hc k ct content n
    have hnewpath : path_at s1 s.brk = some k := by
      show (s1.heap s.brk).map cache_entry.path = some k
      rw [he]
      have : e.path = k := congrArg Prod.fst hpe
      simp [this]
    have hpath1 : ∀ p ∈ L, path_at s1 p = path_at s p := by
      intro p hpL
      exact payload_path (hd1 p (fun h => hbL (h ▸ hpL)))
    refine ⟨s1, _, hs1, hi1, ?_, ?_⟩
    · intro p hpm
      rcases List.mem_cons.1 hpm with rfl | hpL
      · exact ⟨k, hnewpath, by rw [hx1, hashtable_get_put]; simp⟩
      · obtain ⟨kp, hkp, hgp⟩ := hic p hpL
        refine ⟨kp, (hpath1 p hpL).trans hkp, ?_⟩
        rw [hx1, hashtable_get_put]
        have : k ≠ kp := fun h => hnew p hpL (h ▸ hkp)
        rw [if_neg this]; exact hgp
    · intro p hpm
      rcases List.mem_cons.1 hpm with rfl | hpL
      · exact Or.inl hnewpath
      · exact Or.inr ⟨hpL, hpath1 p hpL⟩
  · have hc1 : s.cache.max_size < s.cache.cur_size + 1 := by omega
    obtain ⟨A, t, hL⟩ := exists_snoc (put_nonempty hi hc1)
    subst hL
    obtain ⟨s1, et, hs1, het, hi1, hx1, _, _, _, ⟨e, he, hpe⟩, _, hd1⟩ :=
      cache_put_evict hi hc1 k ct content n
    have htA : t ∉ A := by
      intro h
      exact (List.nodup_append.1 hi.wf.nodup).2.2 h (List.mem_singleton_self t)
    have htpath : path_at s t = some et.path := by
      show (s.heap t).map cache_entry.path = some et.path
      rw [het]; rfl
    have hetk : et.path ≠ k := by
      intro h
      exact hnew t (by simp) (by rw [htpath, h])
    have hnewpath : path_at s1 s.brk = some k := by
      show (s1.heap s.brk).map cache_entry.path = some k
      rw [he]
      have : e.path = k := congrArg Prod.fst hpe
      simp [this]
    have hpath1 : ∀ p ∈ A, path_at s1 p = path_at s p := by
      intro p hpA
      exact payload_path (hd1 p (fun h => hbL (h ▸ List.mem_append_left _ hpA))
        (fun h => htA (h ▸ hpA)))
    refine ⟨s1, _, hs1, hi1, ?_, ?_⟩
    · intro p hpm
      rcases List.mem_cons.1 hpm with rfl | hpA
      · refine ⟨k, hnewpath, ?_⟩
        rw [hx1, hashtable_get_delete, if_neg hetk, hashtable_get_put, if_pos rfl]
      · have hpL : p ∈ A ++ [t] := List.mem_append_left _ hpA
        obtain ⟨kp, hkp, hgp⟩ := hic p hpL
        refine ⟨kp, (hpath1 p hpA).trans hkp, ?_⟩
        have h1 : et.path ≠ kp := by
          intro h
          obtain ⟨kt, hkt, hgt⟩ := hic t (by simp)
          rw [htpath] at hkt
          cases hkt
          rw [h, hgp] at hgt
          cases hgt
          exact htA hpA
        have h2 : k ≠ kp := fun h => hnew p hpL (h ▸ hkp)
        rw [hx1, hashtable_get_delete, if_neg h1, hashtable_get_put, if_neg h2]
        exact hgp
    · intro p hpm
      rcases List.mem_cons.1 hpm with rfl | hpA
      · exact Or.inl hnewpath
      · exact Or.inr ⟨List.mem_append_left _ hpA, hpath1 p hpA⟩

/-- A sequence of calls whose put keys are pairwise distinct, and distinct
from the keys `ks` used before, keeps every list entry indexed under its
path. -/
theorem run_distinct {s : State} {L : List Ptr} (ks : List String) (hi : CacheInv s L)
    (hic : index_complete s L) (hsub : ∀ p ∈ L, ∃ k ∈ ks, path_at s p = some k)
    (ops : List Op) (hnd : (put_keys ops).Nodup) (hdis : ∀ k ∈ put_keys ops, k ∉ ks) :
    ∃ s1 L1, run s ops = some s1 ∧ CacheInv s1 L1 ∧ index_complete s1 L1 := by
  induction ops generalizing s L ks with
  | nil => exact ⟨s, L, rfl, hi, hic⟩
  | cons op ops ih =>
    cases op with
    | put k ct content n =>
      simp only [put_keys, List.nodup_cons] at hnd
      have hk : k ∉ ks := hdis k (by simp [put_keys])
      have hnew : ∀ p ∈ L, path_at s p ≠ some k := by
        intro p hp hpk
        obtain ⟨k1, hk1, hp1⟩ := hsub p hp
        rw [hpk] at hp1
        cases hp1
        exact hk hk1
      obtain ⟨s1, L1, hs1, hi1, hic1, hp1⟩ := put_complete hi hic k ct content n hnew
      obtain ⟨s2, L2, hs2, hi2, hic2⟩ := ih (k :: ks) hi1 hic1
        (by
          intro p hp
          rcases hp1 p hp with h | ⟨hpL, h⟩
          · exact ⟨k, List.mem_cons_self _ _, h⟩
          · obtain ⟨k1, hk1, hpk1⟩ := hsub p hpL
            exact ⟨k1, List.mem_cons_of_mem _ hk1, h.trans hpk1⟩)
        hnd.2
        (by
          intro k1 hk1 hmem
          rcases List.mem_cons.1 hmem with h | h
          · exact hnd.1 (h ▸ hk1)
          · exact hdis k1 (by simp [put_keys, hk1]) h)
      exact ⟨s2, L2, by simp [run, step, hs1, hs2], hi2, hic2⟩
    | get k =>
      have hnd1 : (put_keys ops).Nodup := hnd
      have hdis1 : ∀ k ∈ put_keys ops, k ∉ ks := hdis
      cases hg : hashtable_get s.cache.index k with
      | none =>
        obtain ⟨s2, L2, hs2, hi2, hic2⟩ := ih ks hi hic hsub hnd1 hdis1
        exact ⟨s2, L2, by simp [run, step, cache_get_miss hg, hs2], hi2, hic2⟩
      | some p =>
        obtain ⟨s1, hs1, hi1, hx1, _, _, _, hd1⟩ := cache_get_hit hi hg
        have hmem : ∀ q ∈ p :: L.erase p, q ∈ L := by
          intro q hq
          rcases List.mem_cons.1 hq with rfl | hq
          · exact (hi.idx k q hg).1
          · exact List.mem_of_mem_erase hq
        have hpath : ∀ q, path_at s1 q = path_at s q := fun q => payload_path (hd1 q)
        obtain ⟨s2, L2, hs2, hi2, hic2⟩ := ih ks hi1
          (by
            intro q hq
            obtain ⟨kq, hkq, hgq⟩ := hic q (hmem q hq)
            exact ⟨kq, (hpath q).trans hkq, by rw [hx1]; exact hgq⟩)
          (by
            intro q hq
            obtain ⟨k1, hk1, hq1⟩ := hsub q (hmem q hq)
            exact ⟨k1, hk1, (hpath q).trans hq1⟩)
          hnd1 hdis1
        exact ⟨s2, L2, by simp [run, step, hs1, hs2], hi2, hic2⟩

/-- C17. Index and list agree on the live keys: for every cache created with
`max_size ≥ 1` and every sequence of `cache_put` calls with pairwise distinct
keys and `cache_get` calls, every call succeeds and in the state reached the
index maps a key to an entry exactly when that entry is in the recency list
and has the key as its path; a key is in the index if and only if exactly one
list entry has that path; every list entry occurs once in the list and is
returned by `cache_get` of its path. -/
theorem index_and_list_agree (max_size hashsize : Int) (hm : 1 ≤ max_size) (ops : List Op)
    (hk : (put_keys ops).Nodup) :
    ∃ s, run (cache_create max_size hashsize) ops = some s ∧
      (∀ k p, hashtable_get s.cache.index k = some p ↔
        (p ∈ dllist_entries s ∧ path_at s p = some k)) ∧
      (∀ k, (∃ p, hashtable_get s.cache.index k = some p) ↔
        ∃! p, p ∈ dllist_entries s ∧ path_at s p = some k) ∧
      (∀ p ∈ dllist_entries s, (dllist_entries s).count p = 1) ∧
      (∀ p ∈ dllist_entries s, ∃ k, path_at s p = some k ∧ cache_get_result s k = some p) := by
  have hic0 : index_complete (cache_create max_size hashsize) [] := by
    intro p hp; cases hp
  obtain ⟨s, L, hs, hi, hic⟩ := run_distinct [] (cache_create_inv max_size hashsize hm) hic0
    (by intro p hp; cases hp) ops hk (by intro k _ h; cases h)
  have hiff : ∀ k p, hashtable_get s.cache.index k = some p ↔ (p ∈ L ∧ path_at s p = some k) := by
    intro k p
    constructor
    · exact hi.idx k p
    · rintro ⟨hp, hpk⟩
      obtain ⟨k1, hk1, hg1⟩ := hic p hp
      rw [hpk] at hk1
      cases hk1
      exact hg1
  refine ⟨s, hs, ?_⟩
  rw [WF_entries hi.wf]
  refine ⟨hiff, ?_, ?_, ?_⟩
  · intro k
    constructor
    · rintro ⟨p, hp⟩
      refine ⟨p, (hiff k p).1 hp, ?_⟩
      intro q hq
      have := (hiff k q).2 hq
      rw [hp] at this
      cases this
      rfl
    · rintro ⟨p, hp, _⟩
      exact ⟨p, (hiff k p).2 hp⟩
  · intro p hp
    exact List.count_eq_one_of_mem hi.wf.nodup hp
  · intro p hp
    obtain ⟨k, hk1, hg1⟩ := hic p hp
    exact ⟨k, hk1, by rw [cache_get_result_eq hi k]; exact hg1⟩

theorem index_and_list_agree_witness :
    ((1 : Int) ≤ 1 ∧ (put_keys [Op.put "/a" "text/plain" [104, 105] 2,
        Op.put "/b" "text/plain" [1] 1, Op.get "/b", Op.put "/c" "text/plain" [] 0]).Nodup) ∧
    ∃ s, run (cache_create 1 0) [Op.put "/a" "text/plain" [104, 105] 2,
        Op.put "/b" "text/plain" [1] 1, Op.get "/b", Op.put "/c" "text/plain" [] 0] = some s ∧
      (∀ k p, hashtable_get s.cache.index k = some p ↔
        (p ∈ dllist_entries s ∧ path_at s p = some k)) ∧
      (∀ k, (∃ p, hashtable_get s.cache.index k = some p) ↔
        ∃! p, p ∈ dllist_entries s ∧ path_at s p = some k) ∧
      (∀ p ∈ dllist_entries s, (dllist_entries s).count p = 1) ∧
      (∀ p ∈ dllist_entries s, ∃ k, path_at s p = some k ∧ cache_get_result s k = some p) :=
  ⟨⟨by decide, by decide⟩, index_and_list_agree 1 0 (by decide) _ (by decide)⟩
